import Mathlib

/-!
Verification of a TSP program consisting of two approximation heuristics
(twice-around-the-tree, Christofides) and an exact branch-and-bound solver,
all working over a symmetric matrix of pairwise distances.

The distance matrix is embedded as a function `ℕ → ℕ → ℚ` together with a
bound `n` on the number of vertices (the program stores it as a list of
lists of floats; rational numbers stand in for the dyadic floating-point
values).  Library calls (networkx minimum spanning tree, Eulerian circuit,
minimum-weight perfect matching) are modelled by their documented
contracts: the object the library returns is a parameter of the model,
constrained by a predicate stating the contract (spanning tree of minimum
weight, Eulerian circuit of the multigraph, perfect matching of minimum
weight).  The branch-and-bound search is embedded as a step function plus
a fuel-indexed loop; the wall-clock timeout checks are modelled by a
boolean oracle consulted once per check, in program order.
-/

namespace TSP

/-- Symmetry of the distance matrix on the first `n` indices. -/
def SymD (d : ℕ → ℕ → ℚ) (n : ℕ) : Prop := ∀ i < n, ∀ j < n, d i j = d j i

/-- Nonnegativity of the distance matrix on the first `n` indices. -/
def NonnegD (d : ℕ → ℕ → ℚ) (n : ℕ) : Prop := ∀ i < n, ∀ j < n, 0 ≤ d i j

/-- Triangle inequality on the first `n` indices (satisfied by Euclidean
distance matrices). -/
def TriD (d : ℕ → ℕ → ℚ) (n : ℕ) : Prop :=
  ∀ i < n, ∀ j < n, ∀ k < n, d i k ≤ d i j + d j k

instance (d : ℕ → ℕ → ℚ) (n : ℕ) : Decidable (SymD d n) :=
  inferInstanceAs (Decidable (∀ i < n, ∀ j < n, d i j = d j i))

instance (d : ℕ → ℕ → ℚ) (n : ℕ) : Decidable (NonnegD d n) :=
  inferInstanceAs (Decidable (∀ i < n, ∀ j < n, 0 ≤ d i j))

instance (d : ℕ → ℕ → ℚ) (n : ℕ) : Decidable (TriD d n) :=
  inferInstanceAs (Decidable (∀ i < n, ∀ j < n, ∀ k < n, d i k ≤ d i j + d j k))

/-- Cost of walking along a vertex list: the sum of `d l[i] l[i+1]`.
This is the sum the source computes as
`sum(dist_matrix[visited[i]][visited[i+1]] for i in range(len(visited)-1))`. -/
def pathCost (d : ℕ → ℕ → ℚ) : List ℕ → ℚ
  | [] => 0
  | [_] => 0
  | a :: b :: r => d a b + pathCost d (b :: r)

/-- Cost of the closed cycle through `l`: path cost plus the closing edge
back to the first vertex. -/
def closedCost (d : ℕ → ℕ → ℚ) (l : List ℕ) : ℚ := pathCost d (l ++ l.take 1)

theorem pathCost_cons_cons (d : ℕ → ℕ → ℚ) (a b : ℕ) (r : List ℕ) :
    pathCost d (a :: b :: r) = d a b + pathCost d (b :: r) := rfl

theorem pathCost_append_cons (d : ℕ → ℕ → ℚ) :
    ∀ (A : List ℕ) (b : ℕ) (B : List ℕ),
      pathCost d (A ++ b :: B) = pathCost d (A ++ [b]) + pathCost d (b :: B)
  | [], b, B => by simp [pathCost]
  | [a], b, B => by simp [pathCost]
  | a :: a' :: A, b, B => by
    have ih := pathCost_append_cons d (a' :: A) b B
    simp only [List.cons_append, pathCost_cons_cons] at *
    rw [ih]; ring

theorem pathCost_concat (d : ℕ → ℕ → ℚ) :
    ∀ (l : List ℕ) (z : ℕ), l ≠ [] →
      pathCost d (l ++ [z]) = pathCost d l + d (l.getLastD 0) z
  | [], _, h => absurd rfl h
  | [a], z, _ => by simp [pathCost]
  | a :: b :: r, z, _ => by
    have ih := pathCost_concat d (b :: r) z (by simp)
    simp only [List.cons_append, pathCost_cons_cons] at *
    rw [ih]
    simp [List.getLastD_cons]
    ring

theorem pathCost_nonneg (d : ℕ → ℕ → ℚ) (n : ℕ) (hd : NonnegD d n) :
    ∀ l : List ℕ, (∀ x ∈ l, x < n) → 0 ≤ pathCost d l
  | [], _ => le_refl 0
  | [_], _ => le_refl 0
  | a :: b :: r, h => by
    have ih := pathCost_nonneg d n hd (b :: r) (fun x hx => h x (List.mem_cons_of_mem a hx))
    have ha : a < n := h a (by simp)
    have hb : b < n := h b (by simp)
    have := hd a ha b hb
    simp only [pathCost_cons_cons]
    linarith

/-- Unordered vertex pairs over `S`, represented with the smaller endpoint
first; this is the edge set `{(i, j) | i, j ∈ S, i < j}` that the source
builds with `if i < j: add_edge(i, j)`. -/
def pairsOf (S : Finset ℕ) : Finset (ℕ × ℕ) :=
  (S ×ˢ S).filter (fun p => p.1 < p.2)

/-- Canonical representation of the undirected edge `{a, b}`. -/
def normPair (a b : ℕ) : ℕ × ℕ := (min a b, max a b)

/-- Total weight of an edge set under the distance matrix. -/
def wSum (d : ℕ → ℕ → ℚ) (T : Finset (ℕ × ℕ)) : ℚ := ∑ e ∈ T, d e.1 e.2

theorem mem_pairsOf {S : Finset ℕ} {e : ℕ × ℕ} :
    e ∈ pairsOf S ↔ e.1 ∈ S ∧ e.2 ∈ S ∧ e.1 < e.2 := by
  simp [pairsOf, Finset.mem_filter, Finset.mem_product, and_assoc]

/-- One-step neighbourhood used to define reachability in an edge set. -/
def nbrs (T : Finset (ℕ × ℕ)) (A : Finset ℕ) : Finset ℕ :=
  (T.filter (fun e => e.1 ∈ A ∨ e.2 ∈ A)).biUnion (fun e => {e.1, e.2})

/-- Vertices reachable from `A` along edges of `T` in at most `k` steps. -/
def reachN (T : Finset (ℕ × ℕ)) : ℕ → Finset ℕ → Finset ℕ
  | 0, A => A
  | k + 1, A => reachN T k A ∪ nbrs T (reachN T k A)

/-- Connectivity of the edge set `T` over the vertex set `S`: every vertex
reaches every other.  `2 * S.card` expansion steps always suffice when `T`
only joins vertices of `S`. -/
def connectedOn (S : Finset ℕ) (T : Finset (ℕ × ℕ)) : Prop :=
  ∀ u ∈ S, ∀ v ∈ S, u ∈ reachN T (2 * S.card) {v}

instance (S : Finset ℕ) (T : Finset (ℕ × ℕ)) : Decidable (connectedOn S T) :=
  inferInstanceAs (Decidable (∀ u ∈ S, ∀ v ∈ S, u ∈ reachN T (2 * S.card) {v}))

/-- Spanning tree of the (complete) graph on `S`: a connected subgraph with
`|S| - 1` edges.  This is the object `nx.minimum_spanning_tree` returns. -/
def IsSpanningTree (S : Finset ℕ) (T : Finset (ℕ × ℕ)) : Prop :=
  T ⊆ pairsOf S ∧ T.card = S.card - 1 ∧ connectedOn S T

instance (S : Finset ℕ) (T : Finset (ℕ × ℕ)) : Decidable (IsSpanningTree S T) :=
  inferInstanceAs (Decidable (_ ∧ _ ∧ _))

/-- Minimum of `f` over a finite candidate set (`0` when the set is empty). -/
def minCostOver {α : Type} [DecidableEq α] (s : Finset α) (f : α → ℚ) : ℚ :=
  WithTop.untop' 0 ((s.image f).min)

theorem minCostOver_le {α : Type} [DecidableEq α] {s : Finset α} {f : α → ℚ}
    {a : α} (ha : a ∈ s) : minCostOver s f ≤ f a := by
  have hmem : f a ∈ s.image f := Finset.mem_image_of_mem f ha
  have hmin : (s.image f).min ≤ (f a : WithTop ℚ) := Finset.min_le hmem
  unfold minCostOver
  rcases h : (s.image f).min with _ | q
  · rw [h] at hmin
    exact absurd (top_le_iff.mp hmin) (by simp)
  · rw [h] at hmin
    simpa [WithTop.untop'] using (WithTop.coe_le_coe.mp hmin)

theorem minCostOver_attained {α : Type} [DecidableEq α] {s : Finset α}
    {f : α → ℚ} (hs : s.Nonempty) :
    ∃ a ∈ s, minCostOver s f = f a ∧ ∀ b ∈ s, f a ≤ f b := by
  obtain ⟨a, ha, hmin⟩ := Finset.exists_min_image s f hs
  refine ⟨a, ha, ?_, hmin⟩
  have h1 : (s.image f).min ≤ (f a : WithTop ℚ) :=
    Finset.min_le (Finset.mem_image_of_mem f ha)
  have h2 : (f a : WithTop ℚ) ≤ (s.image f).min := by
    apply Finset.le_min
    intro b hb
    obtain ⟨c, hc, rfl⟩ := Finset.mem_image.mp hb
    exact_mod_cast hmin c hc
  have : (s.image f).min = (f a : WithTop ℚ) := le_antisymm h1 h2
  simp [minCostOver, this, WithTop.untop']

theorem minCostOver_empty {α : Type} [DecidableEq α] (f : α → ℚ) :
    minCostOver (∅ : Finset α) f = 0 := by
  simp [minCostOver]

/-- Weight of a minimum spanning tree of the complete graph on `S`:
the minimum of total weight over all spanning trees.  Models the value
`nx.minimum_spanning_tree(subgraph).size(weight='weight')`. -/
def mstCost (d : ℕ → ℕ → ℚ) (S : Finset ℕ) : ℚ :=
  minCostOver ((pairsOf S).powerset.filter (fun T => IsSpanningTree S T)) (wSum d)

theorem mstCost_le {d : ℕ → ℕ → ℚ} {S : Finset ℕ} {T : Finset (ℕ × ℕ)}
    (hT : IsSpanningTree S T) : mstCost d S ≤ wSum d T := by
  apply minCostOver_le
  simp [Finset.mem_filter, Finset.mem_powerset, hT, hT.1]

theorem mstCost_nonneg {d : ℕ → ℕ → ℚ} {S : Finset ℕ}
    (hw : ∀ e ∈ pairsOf S, 0 ≤ d e.1 e.2) : 0 ≤ mstCost d S := by
  rcases Finset.eq_empty_or_nonempty
      ((pairsOf S).powerset.filter (fun T => IsSpanningTree S T)) with h | h
  · rw [mstCost, h, minCostOver_empty]
  · obtain ⟨T, hTmem, heq, _⟩ := @minCostOver_attained _ _ _ (wSum d) h
    rw [mstCost, heq]
    have hsub : T ⊆ pairsOf S := (Finset.mem_filter.mp hTmem).2.1
    exact Finset.sum_nonneg (fun e he => hw e (hsub he))

theorem nbrs_mono {T : Finset (ℕ × ℕ)} {A B : Finset ℕ} (h : A ⊆ B) :
    nbrs T A ⊆ nbrs T B := by
  intro x hx
  simp only [nbrs, Finset.mem_biUnion, Finset.mem_filter] at hx ⊢
  obtain ⟨e, ⟨heT, hend⟩, hxe⟩ := hx
  exact ⟨e, ⟨heT, hend.imp (fun h1 => h h1) (fun h2 => h h2)⟩, hxe⟩

theorem subset_reachN (T : Finset (ℕ × ℕ)) : ∀ (k : ℕ) (A : Finset ℕ), A ⊆ reachN T k A
  | 0, A => subset_refl A
  | k + 1, A => (subset_reachN T k A).trans Finset.subset_union_left

theorem reachN_mono_set (T : Finset (ℕ × ℕ)) :
    ∀ (k : ℕ) {A B : Finset ℕ}, A ⊆ B → reachN T k A ⊆ reachN T k B
  | 0, _, _, h => h
  | k + 1, A, B, h => by
    have ih := reachN_mono_set T k h
    exact Finset.union_subset_union ih (nbrs_mono ih)

theorem reachN_succ_supset (T : Finset (ℕ × ℕ)) (k : ℕ) (A : Finset ℕ) :
    reachN T k A ⊆ reachN T (k + 1) A := Finset.subset_union_left

theorem reachN_mono_fuel (T : Finset (ℕ × ℕ)) {k m : ℕ} (h : k ≤ m) (A : Finset ℕ) :
    reachN T k A ⊆ reachN T m A := by
  induction m with
  | zero => simp_all
  | succ m ih =>
    rcases Nat.lt_or_ge k (m + 1) with hlt | hge
    · exact (ih (Nat.lt_succ_iff.mp hlt)).trans (reachN_succ_supset T m A)
    · have : k = m + 1 := le_antisymm h hge
      subst this
      exact subset_refl _

theorem reachN_comp (T : Finset (ℕ × ℕ)) :
    ∀ (k m : ℕ) (A : Finset ℕ), reachN T k (reachN T m A) ⊆ reachN T (k + m) A
  | 0, m, A => by simp [reachN]
  | k + 1, m, A => by
    have ih := reachN_comp T k m A
    show reachN T k (reachN T m A) ∪ nbrs T (reachN T k (reachN T m A)) ⊆ _
    have : k + 1 + m = (k + m) + 1 := by omega
    rw [this]
    exact Finset.union_subset (ih.trans (reachN_succ_supset T (k + m) A))
      ((nbrs_mono ih).trans Finset.subset_union_right)

theorem reachN_step {T : Finset (ℕ × ℕ)} {k : ℕ} {A : Finset ℕ} {u v : ℕ}
    (hu : u ∈ reachN T k A) (he : (u, v) ∈ T ∨ (v, u) ∈ T) :
    v ∈ reachN T (k + 1) A := by
  apply Finset.mem_union_right
  simp only [nbrs, Finset.mem_biUnion, Finset.mem_filter]
  rcases he with he | he
  · exact ⟨(u, v), ⟨he, Or.inl hu⟩, by simp⟩
  · exact ⟨(v, u), ⟨he, Or.inr hu⟩, by simp⟩

theorem reachN_endpoint {T : Finset (ℕ × ℕ)} :
    ∀ {k : ℕ} {A : Finset ℕ} {x : ℕ}, x ∈ reachN T k A →
      x ∈ A ∨ ∃ e ∈ T, x = e.1 ∨ x = e.2 := by
  intro k
  induction k with
  | zero => intro A x hx; exact Or.inl hx
  | succ k ih =>
    intro A x hx
    rcases Finset.mem_union.mp hx with hx | hx
    · exact ih hx
    · simp only [nbrs, Finset.mem_biUnion, Finset.mem_filter] at hx
      obtain ⟨e, ⟨heT, _⟩, hxe⟩ := hx
      right
      refine ⟨e, heT, ?_⟩
      rcases Finset.mem_insert.mp hxe with h | h
      · exact Or.inl h
      · exact Or.inr (Finset.mem_singleton.mp h)

/-- Consecutive pairs of a vertex list, in canonical orientation. -/
def listPairs : List ℕ → List (ℕ × ℕ)
  | a :: b :: r => normPair a b :: listPairs (b :: r)
  | _ => []

/-- Edge set of the path through the vertex list `l`. -/
def pathEdges (l : List ℕ) : Finset (ℕ × ℕ) := (listPairs l).toFinset

theorem normPair_mem_cases (a b : ℕ) : normPair a b = (a, b) ∨ normPair a b = (b, a) := by
  unfold normPair
  rcases le_total a b with h | h
  · left; simp [min_eq_left h, max_eq_right h]
  · right; simp [min_eq_right h, max_eq_left h]

theorem listPairs_endpoints :
    ∀ {l : List ℕ} {e : ℕ × ℕ}, e ∈ listPairs l → e.1 ∈ l ∧ e.2 ∈ l
  | [], _, h => by simp [listPairs] at h
  | [_], _, h => by simp [listPairs] at h
  | a :: b :: r, e, h => by
    rcases List.mem_cons.mp h with he | he
    · subst he
      rcases normPair_mem_cases a b with h | h <;> rw [h] <;> simp
    · have := listPairs_endpoints he
      exact ⟨List.mem_cons_of_mem a this.1, List.mem_cons_of_mem a this.2⟩

theorem listPairs_length : ∀ l : List ℕ, (listPairs l).length = l.length - 1
  | [] => rfl
  | [_] => rfl
  | a :: b :: r => by
    have := listPairs_length (b :: r)
    simp [listPairs] at *
    omega

theorem listPairs_nodup : ∀ {l : List ℕ}, l.Nodup → (listPairs l).Nodup
  | [], _ => List.nodup_nil
  | [_], _ => List.nodup_nil
  | a :: b :: r, h => by
    have htail : (b :: r).Nodup := h.of_cons
    have ha : a ∉ b :: r := (List.nodup_cons.mp h).1
    refine List.nodup_cons.mpr ⟨?_, listPairs_nodup htail⟩
    intro hmem
    have := listPairs_endpoints hmem
    rcases normPair_mem_cases a b with hn | hn <;> rw [hn] at this
    · exact ha this.1
    · exact ha this.2

theorem listPairs_fst_lt_snd :
    ∀ {l : List ℕ}, l.Nodup → ∀ e ∈ listPairs l, e.1 < e.2
  | [], _, _, h => by simp [listPairs] at h
  | [_], _, _, h => by simp [listPairs] at h
  | a :: b :: r, hnd, e, h => by
    rcases List.mem_cons.mp h with he | he
    · subst he
      have hab : a ≠ b := by
        intro hab
        exact (List.nodup_cons.mp hnd).1 (hab ▸ List.mem_cons_self b r)
      show min a b < max a b
      rcases lt_or_gt_of_ne hab with h1 | h1
      · rw [min_eq_left h1.le, max_eq_right h1.le]; exact h1
      · rw [min_eq_right h1.le, max_eq_left h1.le]; exact h1
    · exact listPairs_fst_lt_snd hnd.of_cons e he

theorem headPair_mem {a b : ℕ} {r : List ℕ} {T : Finset (ℕ × ℕ)}
    (hsub : ∀ e ∈ listPairs (a :: b :: r), e ∈ T) :
    (a, b) ∈ T ∨ (b, a) ∈ T := by
  have hmem : normPair a b ∈ T := hsub _ (by simp [listPairs])
  rcases normPair_mem_cases a b with h | h
  · exact Or.inl (h ▸ hmem)
  · exact Or.inr (h ▸ hmem)

theorem chain_reach_fwd :
    ∀ (l : List ℕ) (a : ℕ) (T : Finset (ℕ × ℕ)),
      (∀ e ∈ listPairs (a :: l), e ∈ T) →
      ∀ x ∈ a :: l, x ∈ reachN T (a :: l).length {a}
  | [], a, T, _, x, hx => by
    simp at hx
    subst hx
    exact subset_reachN T 1 _ (by simp)
  | b :: r, a, T, hsub, x, hx => by
    rcases List.mem_cons.mp hx with rfl | hx
    · exact subset_reachN T _ {x} (by simp)
    · have hsub' : ∀ e ∈ listPairs (b :: r), e ∈ T := by
        intro e he
        exact hsub e (by simp [listPairs, he])
      have ih := chain_reach_fwd r b T hsub' x hx
      have hb : b ∈ reachN T 1 {a} :=
        reachN_step (subset_reachN T 0 {a} (by simp)) (headPair_mem hsub)
      have h1 : reachN T (b :: r).length {b} ⊆ reachN T (b :: r).length (reachN T 1 {a}) :=
        reachN_mono_set T _ (Finset.singleton_subset_iff.mpr hb)
      have h2 := reachN_comp T (b :: r).length 1 ({a} : Finset ℕ)
      have : x ∈ reachN T ((b :: r).length + 1) {a} := h2 (h1 ih)
      simpa [List.length_cons] using this

theorem chain_reach_bwd :
    ∀ (l : List ℕ) (a : ℕ) (T : Finset (ℕ × ℕ)),
      (∀ e ∈ listPairs (a :: l), e ∈ T) →
      ∀ y ∈ a :: l, a ∈ reachN T (a :: l).length {y}
  | [], a, T, _, y, hy => by
    simp at hy
    subst hy
    exact subset_reachN T 1 {y} (by simp)
  | b :: r, a, T, hsub, y, hy => by
    rcases List.mem_cons.mp hy with rfl | hy
    · exact subset_reachN T _ {y} (by simp)
    · have hsub' : ∀ e ∈ listPairs (b :: r), e ∈ T := by
        intro e he
        exact hsub e (by simp [listPairs, he])
      have ih := chain_reach_bwd r b T hsub' y hy
      have hedge : (b, a) ∈ T ∨ (a, b) ∈ T := (headPair_mem hsub).symm
      have : a ∈ reachN T ((b :: r).length + 1) {y} := reachN_step ih hedge
      simpa [List.length_cons] using this

theorem path_connectedOn {l : List ℕ} {S : Finset ℕ} (hnd : l.Nodup)
    (hS : l.toFinset = S) : connectedOn S (pathEdges l) := by
  intro u hu v hv
  have hul : u ∈ l := by rw [← hS] at hu; simpa using hu
  have hvl : v ∈ l := by rw [← hS] at hv; simpa using hv
  cases l with
  | nil => simp at hul
  | cons a t =>
    have hsub : ∀ e ∈ listPairs (a :: t), e ∈ pathEdges (a :: t) := by
      intro e he; simpa [pathEdges] using he
    have h1 := chain_reach_fwd t a _ hsub u hul
    have h2 := chain_reach_bwd t a _ hsub v hvl
    have hcard : S.card = (a :: t).length := by
      rw [← hS, List.toFinset_card_of_nodup hnd]
    set T := pathEdges (a :: t)
    set len := (a :: t).length
    have h3 : reachN T len {a} ⊆ reachN T len (reachN T len {v}) :=
      reachN_mono_set T len (Finset.singleton_subset_iff.mpr h2)
    have h4 := reachN_comp T len len ({v} : Finset ℕ)
    have : u ∈ reachN T (len + len) {v} := h4 (h3 h1)
    have h5 : 2 * S.card = len + len := by rw [hcard]; ring
    rwa [h5]

theorem pathEdges_spanning {l : List ℕ} {S : Finset ℕ} (hnd : l.Nodup)
    (hS : l.toFinset = S) : IsSpanningTree S (pathEdges l) := by
  refine ⟨?_, ?_, path_connectedOn hnd hS⟩
  · intro e he
    simp only [pathEdges, List.mem_toFinset] at he
    have hend := listPairs_endpoints he
    have hlt := listPairs_fst_lt_snd hnd e he
    rw [mem_pairsOf]
    exact ⟨by rw [← hS]; simpa using hend.1, by rw [← hS]; simpa using hend.2, hlt⟩
  · rw [pathEdges, List.toFinset_card_of_nodup (listPairs_nodup hnd),
      listPairs_length, ← hS, List.toFinset_card_of_nodup hnd]

theorem wSum_pathEdges {d : ℕ → ℕ → ℚ} {n : ℕ} (hsym : SymD d n) :
    ∀ {l : List ℕ}, l.Nodup → (∀ x ∈ l, x < n) →
      wSum d (pathEdges l) = pathCost d l := by
  intro l
  induction l with
  | nil => intro _ _; simp [wSum, pathEdges, listPairs, pathCost]
  | cons a t ih =>
    intro hnd hb
    cases t with
    | nil => simp [wSum, pathEdges, listPairs, pathCost]
    | cons b r =>
      have hnd' : (b :: r).Nodup := hnd.of_cons
      have hb' : ∀ x ∈ b :: r, x < n := fun x hx => hb x (List.mem_cons_of_mem a hx)
      have hnotm : normPair a b ∉ listPairs (b :: r) := by
        intro hmem
        have := listPairs_endpoints hmem
        have ha : a ∉ b :: r := (List.nodup_cons.mp hnd).1
        rcases normPair_mem_cases a b with h | h <;> rw [h] at this
        · exact ha this.1
        · exact ha this.2
      have hstep : pathEdges (a :: b :: r) = insert (normPair a b) (pathEdges (b :: r)) := by
        simp [pathEdges, listPairs]
      rw [hstep, pathCost_cons_cons, ← ih hnd' hb']
      rw [wSum, Finset.sum_insert (by simpa [pathEdges] using hnotm)]
      have hdn : d (normPair a b).1 (normPair a b).2 = d a b := by
        rcases normPair_mem_cases a b with h | h <;> rw [h]
        exact hsym a (hb a (by simp)) b (hb b (by simp)) |>.symm ▸ rfl
      rw [hdn]
      rfl

/-- Optimal value of the travelling-salesman instance: the minimum closed-cycle
cost over all orderings of the `n` vertices. -/
def minHamCost (d : ℕ → ℕ → ℚ) (n : ℕ) : ℚ :=
  minCostOver ((List.range n).permutations).toFinset (closedCost d)

theorem minHamCost_le {d : ℕ → ℕ → ℚ} {n : ℕ} {p : List ℕ}
    (hp : p.Perm (List.range n)) : minHamCost d n ≤ closedCost d p := by
  apply minCostOver_le
  simpa [List.mem_permutations] using hp

theorem closedCost_decompose (d : ℕ → ℕ → ℚ) (a : ℕ) (A : List ℕ) (b : ℕ) (B : List ℕ) :
    closedCost d ((a :: A) ++ (b :: B)) =
      pathCost d ((a :: A) ++ [b]) + pathCost d ((b :: B) ++ [a]) := by
  unfold closedCost
  have h1 : ((a :: A) ++ (b :: B)).take 1 = [a] := by simp
  rw [h1]
  have h2 : (a :: A) ++ (b :: B) ++ [a] = (a :: A) ++ (b :: (B ++ [a])) := by simp
  rw [h2, pathCost_append_cons]
  rfl

theorem closedCost_rotate (d : ℕ → ℕ → ℚ) :
    ∀ (A B : List ℕ), closedCost d (A ++ B) = closedCost d (B ++ A) := by
  intro A B
  cases A with
  | nil => simp
  | cons a A =>
    cases B with
    | nil => simp
    | cons b B =>
      rw [closedCost_decompose, closedCost_decompose]
      ring

theorem closedCost_nonneg {d : ℕ → ℕ → ℚ} {n : ℕ} (hd : NonnegD d n)
    {l : List ℕ} (hb : ∀ x ∈ l, x < n) : 0 ≤ closedCost d l := by
  unfold closedCost
  apply pathCost_nonneg d n hd
  intro x hx
  rcases List.mem_append.mp hx with h | h
  · exact hb x h
  · exact hb x (List.mem_of_mem_take h)

theorem pathCost_le_closedCost {d : ℕ → ℕ → ℚ} {n : ℕ} (hd : NonnegD d n)
    {l : List ℕ} (hb : ∀ x ∈ l, x < n) : pathCost d l ≤ closedCost d l := by
  unfold closedCost
  cases l with
  | nil => simp
  | cons a t =>
    have hne : (a :: t) ≠ [] := by simp
    have htake : (a :: t) ++ (a :: t).take 1 = (a :: t) ++ [a] := by simp
    rw [htake, pathCost_concat d (a :: t) a hne]
    have hlast : (a :: t).getLastD 0 ∈ a :: t := by
      have := List.getLast_mem hne
      simp only [List.getLastD_eq_getLast?, List.getLast?_eq_getLast _ hne]
      exact this
    have := hd _ (hb _ hlast) a (hb a (by simp))
    linarith

theorem exists_optCycle {d : ℕ → ℕ → ℚ} {n : ℕ} (hn : 1 ≤ n) :
    ∃ σ : List ℕ, σ.head? = some 0 ∧ σ.Perm (List.range n) ∧
      closedCost d σ = minHamCost d n := by
  have hne : ((List.range n).permutations).toFinset.Nonempty :=
    ⟨List.range n, by simp [List.mem_permutations]⟩
  obtain ⟨p, hpmem, heq, _⟩ := @minCostOver_attained _ _ _ (closedCost d) hne
  have hperm : p.Perm (List.range n) := by
    simpa [List.mem_permutations] using hpmem
  have h0 : (0 : ℕ) ∈ p := hperm.mem_iff.mpr (by simpa using hn)
  obtain ⟨A, B, rfl⟩ := List.append_of_mem h0
  refine ⟨(0 :: B) ++ A, by cases B <;> simp, ?_, ?_⟩
  · exact (List.perm_append_comm).trans hperm
  · rw [closedCost_rotate d (0 :: B) A, minHamCost, heq]

theorem minHamCost_nonneg {d : ℕ → ℕ → ℚ} {n : ℕ} (hd : NonnegD d n) (hn : 1 ≤ n) :
    0 ≤ minHamCost d n := by
  obtain ⟨σ, _, hperm, heq⟩ := @exists_optCycle d _ hn
  rw [← heq]
  exact closedCost_nonneg hd (fun x hx => by
    have := hperm.mem_iff.mp hx
    simpa using this)

/-- The minimum spanning tree weight is a lower bound on the optimal tour:
deleting the closing edge of an optimal cycle leaves a Hamiltonian path,
which is a spanning tree of the complete graph. -/
theorem toFinset_of_perm_range {σ : List ℕ} {n : ℕ}
    (h : σ.Perm (List.range n)) : σ.toFinset = Finset.range n := by
  rw [List.toFinset_eq_of_perm _ _ h]
  ext x
  simp

theorem mstCost_le_minHamCost {d : ℕ → ℕ → ℚ} {n : ℕ} (hsym : SymD d n)
    (hd : NonnegD d n) (hn : 1 ≤ n) :
    mstCost d (Finset.range n) ≤ minHamCost d n := by
  obtain ⟨σ, _, hperm, heq⟩ := @exists_optCycle d _ hn
  have hnd : σ.Nodup := hperm.nodup_iff.mpr (List.nodup_range n)
  have hbound : ∀ x ∈ σ, x < n := fun x hx => by
    have := hperm.mem_iff.mp hx; simpa using this
  have hfin : σ.toFinset = Finset.range n := toFinset_of_perm_range hperm
  have h1 : mstCost d (Finset.range n) ≤ wSum d (pathEdges σ) :=
    mstCost_le (pathEdges_spanning hnd hfin)
  rw [wSum_pathEdges hsym hnd hbound] at h1
  calc mstCost d (Finset.range n) ≤ pathCost d σ := h1
  _ ≤ closedCost d σ := pathCost_le_closedCost hd hbound
  _ = minHamCost d n := heq

/-- Stateful subsequence extractor: keeps `v` when `test s v` holds and
threads the state with `upd` either way.  Instantiated below both by the
first-occurrence filter of the shortcutting loop and by plain `filter`. -/
def sfold {s : Type} (test : s → ℕ → Bool) (upd : s → ℕ → s) : s → List ℕ → List ℕ
  | _, [] => []
  | st, v :: t =>
    if test st v then v :: sfold test upd (upd st v) t else sfold test upd (upd st v) t

theorem sfold_subset {s : Type} (test : s → ℕ → Bool) (upd : s → ℕ → s) :
    ∀ (V : List ℕ) (st : s) (x : ℕ), x ∈ sfold test upd st V → x ∈ V
  | [], _, _, h => by simp [sfold] at h
  | v :: t, st, x, h => by
    by_cases hv : test st v
    · rw [sfold, if_pos hv] at h
      rcases List.mem_cons.mp h with rfl | h
      · exact List.mem_cons_self x t
      · exact List.mem_cons_of_mem v (sfold_subset test upd t (upd st v) x h)
    · rw [sfold, if_neg hv] at h
      exact List.mem_cons_of_mem v (sfold_subset test upd t (upd st v) x h)

/-- Key shortcutting inequality: under the triangle inequality, skipping
vertices of a walk never increases the cost of the walk plus a final hop
to `w`. -/
theorem sfold_cost_le {s : Type} (test : s → ℕ → Bool) (upd : s → ℕ → s)
    (d : ℕ → ℕ → ℚ) (n : ℕ) (htri : TriD d n) :
    ∀ (V : List ℕ) (st : s) (a w : ℕ), a < n → w < n → (∀ x ∈ V, x < n) →
      pathCost d (a :: sfold test upd st V) +
          d ((a :: sfold test upd st V).getLastD 0) w
        ≤ pathCost d (a :: V) + d ((a :: V).getLastD 0) w
  | [], st, a, w, _, _, _ => by simp [sfold, pathCost]
  | v :: t, st, a, w, ha, hw, hV => by
    have hv : v < n := hV v (List.mem_cons_self v t)
    have hV' : ∀ x ∈ t, x < n := fun x hx => hV x (List.mem_cons_of_mem v hx)
    by_cases htest : test st v
    · rw [sfold, if_pos htest]
      have ih := sfold_cost_le test upd d n htri t (upd st v) v w hv hw hV'
      have e1 : pathCost d (a :: v :: sfold test upd (upd st v) t) =
          d a v + pathCost d (v :: sfold test upd (upd st v) t) := rfl
      have e2 : pathCost d (a :: v :: t) = d a v + pathCost d (v :: t) := rfl
      have e3 : (a :: v :: sfold test upd (upd st v) t).getLastD 0 =
          (v :: sfold test upd (upd st v) t).getLastD 0 := by
        simp [List.getLastD_cons]
      have e4 : (a :: v :: t).getLastD 0 = (v :: t).getLastD 0 := by
        simp [List.getLastD_cons]
      rw [e1, e2, e3, e4]
      linarith
    · rw [sfold, if_neg htest]
      have ih := sfold_cost_le test upd d n htri t (upd st v) a w ha hw hV'
      have hmid : pathCost d (a :: t) + d ((a :: t).getLastD 0) w
          ≤ pathCost d (a :: v :: t) + d ((a :: v :: t).getLastD 0) w := by
        cases t with
        | nil =>
          simp only [pathCost, List.getLastD_cons, List.getLastD_nil]
          linarith [htri a ha v hv w hw]
        | cons u r =>
          have hu : u < n := hV' u (List.mem_cons_self u r)
          have e5 : pathCost d (a :: u :: r) = d a u + pathCost d (u :: r) := rfl
          have e6 : pathCost d (a :: v :: u :: r) =
              d a v + (d v u + pathCost d (u :: r)) := rfl
          have e7 : (a :: u :: r).getLastD 0 = (u :: r).getLastD 0 := by
            simp [List.getLastD_cons]
          have e8 : (a :: v :: u :: r).getLastD 0 = (u :: r).getLastD 0 := by
            simp [List.getLastD_cons]
          rw [e5, e6, e7, e8]
          have := htri a ha v hv u hu
          linarith
      exact ih.trans hmid

/-- First-occurrence filter: the shortcutting loop of the source
(`if u not in visited_set: visited.append(u); visited_set.add(u)`). -/
def firstOccur (vs : List ℕ) : List ℕ :=
  sfold (fun st v => decide (v ∉ st)) (fun st v => insert v st) (∅ : Finset ℕ) vs

theorem firstOccur_cons (v : ℕ) (t : List ℕ) :
    firstOccur (v :: t) =
      v :: sfold (fun st x => decide (x ∉ st)) (fun st x => insert x st) ({v} : Finset ℕ) t := by
  simp [firstOccur, sfold]

theorem sfold_fo_nodup :
    ∀ (V : List ℕ) (st : Finset ℕ),
      (sfold (fun s x => decide (x ∉ s)) (fun s x => insert x s) st V).Nodup ∧
      ∀ x ∈ sfold (fun s x => decide (x ∉ s)) (fun s x => insert x s) st V, x ∉ st
  | [], _ => by simp [sfold]
  | v :: t, st => by
    have ih := sfold_fo_nodup t (insert v st)
    by_cases hv : v ∈ st
    · rw [sfold, if_neg (by simpa using hv)]
      exact ⟨ih.1, fun x hx hxst => ih.2 x hx (Finset.mem_insert_of_mem hxst)⟩
    · rw [sfold, if_pos (by simpa using hv)]
      constructor
      · refine List.nodup_cons.mpr ⟨?_, ih.1⟩
        intro hmem
        exact ih.2 v hmem (Finset.mem_insert_self v st)
      · intro x hx
        rcases List.mem_cons.mp hx with rfl | hx
        · exact hv
        · exact fun hxst => ih.2 x hx (Finset.mem_insert_of_mem hxst)

theorem sfold_fo_complete :
    ∀ (V : List ℕ) (st : Finset ℕ) (x : ℕ), x ∈ V →
      x ∈ st ∨ x ∈ sfold (fun s y => decide (y ∉ s)) (fun s y => insert y s) st V
  | [], _, _, h => by simp at h
  | v :: t, st, x, h => by
    by_cases hv : v ∈ st
    · rw [sfold, if_neg (by simpa using hv)]
      rcases List.mem_cons.mp h with rfl | h
      · exact Or.inl hv
      · rcases sfold_fo_complete t (insert v st) x h with hx | hx
        · rcases Finset.mem_insert.mp hx with rfl | hx
          · exact Or.inl hv
          · exact Or.inl hx
        · exact Or.inr hx
    · rw [sfold, if_pos (by simpa using hv)]
      rcases List.mem_cons.mp h with rfl | h
      · exact Or.inr (List.mem_cons_self x _)
      · rcases sfold_fo_complete t (insert v st) x h with hx | hx
        · rcases Finset.mem_insert.mp hx with rfl | hx
          · exact Or.inr (List.mem_cons_self x _)
          · exact Or.inl hx
        · exact Or.inr (List.mem_cons_of_mem v hx)

theorem firstOccur_nodup (vs : List ℕ) : (firstOccur vs).Nodup :=
  (sfold_fo_nodup vs ∅).1

theorem firstOccur_subset {vs : List ℕ} {x : ℕ} (h : x ∈ firstOccur vs) : x ∈ vs :=
  sfold_subset _ _ vs ∅ x h

theorem firstOccur_complete {vs : List ℕ} {x : ℕ} (h : x ∈ vs) : x ∈ firstOccur vs := by
  rcases sfold_fo_complete vs ∅ x h with hx | hx
  · simp at hx
  · exact hx

/-- Eulerian circuit of the multigraph `M` (edges as canonically oriented
unordered pairs, with multiplicity): a sequence of directed traversals that
uses every multigraph edge exactly once, each traversal starting where the
previous one ended, and ending back at the start.  This is the contract of
`nx.eulerian_circuit`. -/
def IsEulerCircuit (M : Multiset (ℕ × ℕ)) (E : List (ℕ × ℕ)) : Prop :=
  ((E.map (fun e => normPair e.1 e.2) : List (ℕ × ℕ)) : Multiset (ℕ × ℕ)) = M ∧
  List.Chain' (fun e f => e.2 = f.1) E ∧
  (E = [] ∨ (E.getLastD (0, 0)).2 = (E.headD (0, 0)).1)

instance (M : Multiset (ℕ × ℕ)) (E : List (ℕ × ℕ)) : Decidable (IsEulerCircuit M E) :=
  inferInstanceAs (Decidable (_ ∧ _ ∧ _))

/-- Multigraph obtained by doubling every edge of the spanning tree
(src/main.py lines 92-94). -/
def doubleMG (T : Finset (ℕ × ℕ)) : Multiset (ℕ × ℕ) := T.val + T.val

/-- Multigraph obtained by adding the matching edges to the spanning tree
(src/main.py lines 138-140). -/
def unionMG (T M : Finset (ℕ × ℕ)) : Multiset (ℕ × ℕ) := T.val + M.val

/-- Shared tail of both heuristics (src/main.py lines 97-107 and 143-153,
which are verbatim identical): walk the Eulerian circuit, keep the first
occurrence of the first component of each edge, close the cycle by
repeating the first vertex, and price the resulting tour.  `none` models
the `IndexError` raised by `visited[0]` on an empty circuit. -/
def shortcutEuler (d : ℕ → ℕ → ℚ) (E : List (ℕ × ℕ)) : Option (List ℕ × ℚ) :=
  match firstOccur (E.map Prod.fst) with
  | [] => none
  | v0 :: rest => some ((v0 :: rest) ++ [v0], pathCost d ((v0 :: rest) ++ [v0]))

/-- Twice-around-the-tree heuristic (src/main.py lines 78-108).  The
networkx minimum spanning tree and the Eulerian circuit of its doubling are
modelled by their contracts; the circuit `E` is the function's parameter and
is constrained in the theorems by `IsEulerCircuit (doubleMG T) E`. -/
def twiceAroundTree (d : ℕ → ℕ → ℚ) (E : List (ℕ × ℕ)) : Option (List ℕ × ℚ) :=
  shortcutEuler d E

/-- Christofides heuristic (src/main.py lines 110-154).  The networkx
minimum spanning tree, minimum-weight perfect matching and Eulerian circuit
are modelled by their contracts; the circuit `E` of the multigraph
`unionMG T M` is the parameter. -/
def christofides (d : ℕ → ℕ → ℚ) (E : List (ℕ × ℕ)) : Option (List ℕ × ℚ) :=
  shortcutEuler d E

theorem chain_walk_cost (d : ℕ → ℕ → ℚ) :
    ∀ (E : List (ℕ × ℕ)), E ≠ [] → List.Chain' (fun e f => e.2 = f.1) E →
      pathCost d (E.map Prod.fst ++ [(E.getLastD (0, 0)).2]) =
        (E.map (fun e => d e.1 e.2)).sum
  | [], h, _ => absurd rfl h
  | [e], _, _ => by simp [pathCost]
  | e1 :: e2 :: r, _, hchain => by
    have h12 : e1.2 = e2.1 := (List.chain'_cons.mp hchain).1
    have ih := chain_walk_cost d (e2 :: r) (by simp) (List.chain'_cons.mp hchain).2
    have hmap : (e1 :: e2 :: r).map Prod.fst ++ [((e1 :: e2 :: r).getLastD (0, 0)).2] =
        e1.1 :: ((e2 :: r).map Prod.fst ++ [((e2 :: r).getLastD (0, 0)).2]) := by
      simp [List.getLastD_cons]
    rw [hmap]
    have hcons : (e2 :: r).map Prod.fst ++ [((e2 :: r).getLastD (0, 0)).2] =
        e2.1 :: (r.map Prod.fst ++ [((e2 :: r).getLastD (0, 0)).2]) := by
      simp
    rw [hcons, pathCost_cons_cons, ← hcons, ih, ← h12]
    simp

theorem euler_snd_mem_aux :
    ∀ (E : List (ℕ × ℕ)) (z : ℕ), List.Chain' (fun e f => e.2 = f.1) E →
      (E.getLastD (0, 0)).2 = z →
      ∀ e ∈ E, e.2 ∈ E.map Prod.fst ∨ e.2 = z
  | [], _, _, _, _, h => by simp at h
  | [e1], z, _, hlast, e, he => by
    simp at he
    subst he
    right
    simpa [List.getLastD_cons] using hlast
  | e1 :: e2 :: r, z, hchain, hlast, e, he => by
    rcases List.mem_cons.mp he with rfl | he
    · left
      have h12 : e.2 = e2.1 := (List.chain'_cons.mp hchain).1
      simp [h12]
    · have ih := euler_snd_mem_aux (e2 :: r) z (List.chain'_cons.mp hchain).2
        (by simpa [List.getLastD_cons] using hlast) e he
      rcases ih with h | h
      · left
        simp only [List.map_cons, List.mem_cons] at h ⊢
        tauto
      · right; exact h

theorem euler_snd_mem {M : Multiset (ℕ × ℕ)} {E : List (ℕ × ℕ)}
    (hE : IsEulerCircuit M E) (hne : E ≠ []) :
    ∀ e ∈ E, e.2 ∈ E.map Prod.fst := by
  intro e he
  obtain ⟨_, hchain, hclosed⟩ := hE
  rcases hclosed with rfl | hclosed
  · exact absurd rfl hne
  · rcases euler_snd_mem_aux E _ hchain hclosed e he with h | h
    · exact h
    · rw [h]
      cases E with
      | nil => exact absurd rfl hne
      | cons f t => simp

theorem mem_of_norm_mem {E : List (ℕ × ℕ)} {e' : ℕ × ℕ}
    (h : e' ∈ E.map (fun e => normPair e.1 e.2)) :
    ∃ e ∈ E, normPair e.1 e.2 = e' := by
  obtain ⟨e, he, heq⟩ := List.mem_map.mp h
  exact ⟨e, he, heq⟩

theorem normPair_fst_snd (a b : ℕ) :
    ((normPair a b).1 = a ∧ (normPair a b).2 = b) ∨
    ((normPair a b).1 = b ∧ (normPair a b).2 = a) := by
  rcases normPair_mem_cases a b with h | h <;> rw [h] <;> simp

theorem euler_endpoint_mem_fst {M : Multiset (ℕ × ℕ)} {E : List (ℕ × ℕ)}
    (hE : IsEulerCircuit M E) (hne : E ≠ []) :
    ∀ e' ∈ M, e'.1 ∈ E.map Prod.fst ∧ e'.2 ∈ E.map Prod.fst := by
  intro e' he'
  have hmem : e' ∈ E.map (fun e => normPair e.1 e.2) := by
    have := hE.1
    rw [← this] at he'
    simpa using he'
  obtain ⟨e, heE, heq⟩ := mem_of_norm_mem hmem
  have h1 : e.1 ∈ E.map Prod.fst := List.mem_map.mpr ⟨e, heE, rfl⟩
  have h2 : e.2 ∈ E.map Prod.fst := euler_snd_mem hE hne e heE
  rcases normPair_fst_snd e.1 e.2 with ⟨ha, hb⟩ | ⟨ha, hb⟩
  · rw [← heq, ha, hb]; exact ⟨h1, h2⟩
  · rw [← heq, ha, hb]; exact ⟨h2, h1⟩

theorem euler_walk_closed_cost {d : ℕ → ℕ → ℚ} {M : Multiset (ℕ × ℕ)}
    {E : List (ℕ × ℕ)} (hE : IsEulerCircuit M E) (hne : E ≠ []) :
    pathCost d (E.map Prod.fst ++ [(E.headD (0, 0)).1]) =
      (E.map (fun e => d e.1 e.2)).sum := by
  obtain ⟨_, hchain, hclosed⟩ := hE
  rcases hclosed with rfl | hclosed
  · exact absurd rfl hne
  · rw [← hclosed]
    exact chain_walk_cost d E hne hchain

theorem euler_edge_sum {d : ℕ → ℕ → ℚ} {n : ℕ} (hsym : SymD d n)
    {M : Multiset (ℕ × ℕ)} {E : List (ℕ × ℕ)}
    (hMb : ∀ e ∈ M, e.1 < n ∧ e.2 < n)
    (hE : IsEulerCircuit M E) :
    (E.map (fun e => d e.1 e.2)).sum = (M.map (fun e => d e.1 e.2)).sum := by
  have hand : ∀ e ∈ E, d e.1 e.2 = d (normPair e.1 e.2).1 (normPair e.1 e.2).2 := by
    intro e he
    have hnm : normPair e.1 e.2 ∈ M := by
      rw [← hE.1]
      exact List.mem_map.mpr ⟨e, he, rfl⟩
    have hb := hMb _ hnm
    rcases normPair_fst_snd e.1 e.2 with ⟨ha, hb'⟩ | ⟨ha, hb'⟩
    · rw [ha, hb']
    · rw [ha, hb']
      have h1 : e.1 < n := by rw [← hb']; exact hb.2
      have h2 : e.2 < n := by rw [← ha]; exact hb.1
      exact hsym e.1 h1 e.2 h2
  have hmapeq : E.map (fun e => d e.1 e.2) =
      E.map (fun e => d (normPair e.1 e.2).1 (normPair e.1 e.2).2) :=
    List.map_congr_left hand
  rw [hmapeq, ← hE.1]
  simp [Multiset.map_coe, Multiset.sum_coe, List.map_map]
  rfl

/-- Well-formed tour in the sense of the specification: length `n + 1`,
first element equals last, and the first `n` entries are a permutation of
`0..n-1`. -/
def ValidTour (n : ℕ) (l : List ℕ) : Prop :=
  l.length = n + 1 ∧ l.head? = l.getLast? ∧ (l.take n).Perm (List.range n)

theorem perm_range_of_nodup_toFinset {l : List ℕ} {n : ℕ} (hnd : l.Nodup)
    (h : l.toFinset = Finset.range n) : l.Perm (List.range n) := by
  apply List.perm_of_nodup_nodup_toFinset_eq hnd (List.nodup_range n)
  rw [h]
  ext x
  simp

theorem euler_edge_ends_lt {n : ℕ} {M : Multiset (ℕ × ℕ)} {E : List (ℕ × ℕ)}
    (hMb : ∀ e ∈ M, e.1 < n ∧ e.2 < n) (hE : IsEulerCircuit M E) :
    ∀ e ∈ E, e.1 < n ∧ e.2 < n := by
  intro e he
  have hnm : normPair e.1 e.2 ∈ M := by
    rw [← hE.1]
    exact List.mem_map.mpr ⟨e, he, rfl⟩
  have hb := hMb _ hnm
  rcases normPair_fst_snd e.1 e.2 with ⟨ha, hb'⟩ | ⟨ha, hb'⟩
  · exact ⟨by rw [← ha]; exact hb.1, by rw [← hb']; exact hb.2⟩
  · exact ⟨by rw [← hb']; exact hb.2, by rw [← ha]; exact hb.1⟩

theorem shortcutEuler_some {d : ℕ → ℕ → ℚ} {e0 : ℕ × ℕ} {E' : List (ℕ × ℕ)} :
    shortcutEuler d (e0 :: E') =
      some ((firstOccur ((e0 :: E').map Prod.fst)) ++ [e0.1],
        pathCost d ((firstOccur ((e0 :: E').map Prod.fst)) ++ [e0.1])) := by
  rw [shortcutEuler]
  have h : firstOccur ((e0 :: E').map Prod.fst) =
      e0.1 :: sfold (fun st x => decide (x ∉ st)) (fun st x => insert x st)
        ({e0.1} : Finset ℕ) (E'.map Prod.fst) := by
    simp only [List.map_cons]
    exact firstOccur_cons e0.1 (E'.map Prod.fst)
  rw [h]

/-- Central lemma for both heuristics: on a nonempty Eulerian circuit whose
multigraph covers all `n` vertices, the shortcut produces a valid tour whose
cost is the tour's edge sum and is at most the total multigraph weight. -/
theorem shortcutEuler_spec {d : ℕ → ℕ → ℚ} {n : ℕ} (hsym : SymD d n)
    (htri : TriD d n) {M : Multiset (ℕ × ℕ)} {E : List (ℕ × ℕ)}
    (hMb : ∀ e ∈ M, e.1 < n ∧ e.2 < n)
    (hcov : ∀ v < n, ∃ e ∈ M, v = e.1 ∨ v = e.2)
    (hE : IsEulerCircuit M E) (hne : E ≠ []) :
    ∃ tour c, shortcutEuler d E = some (tour, c) ∧ ValidTour n tour ∧
      c = pathCost d tour ∧ c ≤ (M.map (fun e => d e.1 e.2)).sum := by
  obtain ⟨e0, E', rfl⟩ := List.exists_cons_of_ne_nil hne
  set vs := (e0 :: E').map Prod.fst with hvs
  have hvs0 : vs = e0.1 :: E'.map Prod.fst := by simp [hvs]
  have hends := euler_edge_ends_lt hMb hE
  have hvsb : ∀ x ∈ vs, x < n := by
    intro x hx
    obtain ⟨e, he, rfl⟩ := List.mem_map.mp hx
    exact (hends e he).1
  set visited := firstOccur vs with hvisited
  have hfo : visited = e0.1 :: sfold (fun st x => decide (x ∉ st))
      (fun st x => insert x st) ({e0.1} : Finset ℕ) (E'.map Prod.fst) := by
    rw [hvisited, hvs0]
    exact firstOccur_cons e0.1 (E'.map Prod.fst)
  have hvisne : visited ≠ [] := by rw [hfo]; simp
  have hnd : visited.Nodup := firstOccur_nodup vs
  have hfin : visited.toFinset = Finset.range n := by
    ext x
    simp only [List.mem_toFinset, Finset.mem_range]
    constructor
    · intro hx
      exact hvsb x (firstOccur_subset hx)
    · intro hx
      obtain ⟨e, heM, hend⟩ := hcov x hx
      have := euler_endpoint_mem_fst hE hne e heM
      rcases hend with rfl | rfl
      · exact firstOccur_complete this.1
      · exact firstOccur_complete this.2
  have hlen : visited.length = n := by
    rw [← List.toFinset_card_of_nodup hnd, hfin, Finset.card_range]
  have hperm : visited.Perm (List.range n) := perm_range_of_nodup_toFinset hnd hfin
  refine ⟨visited ++ [e0.1], pathCost d (visited ++ [e0.1]), shortcutEuler_some, ?_, rfl, ?_⟩
  · refine ⟨by simp [hlen], ?_, ?_⟩
    · rw [hfo, List.getLast?_concat]
      simp
    · have : (visited ++ [e0.1]).take n = visited := by
        rw [← hlen]
        exact List.take_left visited [e0.1]
      rw [this]
      exact hperm
  · have h1 : pathCost d (visited ++ [e0.1]) =
        pathCost d visited + d (visited.getLastD 0) e0.1 :=
      pathCost_concat d visited e0.1 hvisne
    have h0n : e0.1 < n := (hends e0 (by simp)).1
    have hsc := sfold_cost_le (fun st x => decide (x ∉ st))
      (fun st x => insert x st) d n htri (E'.map Prod.fst) ({e0.1} : Finset ℕ)
      e0.1 e0.1 h0n h0n
      (fun x hx => hvsb x (by rw [hvs0]; exact List.mem_cons_of_mem _ hx))
    rw [← hfo] at hsc
    have h2 : pathCost d (vs ++ [e0.1]) =
        pathCost d vs + d (vs.getLastD 0) e0.1 :=
      pathCost_concat d vs e0.1 (by rw [hvs0]; simp)
    have h3 : pathCost d (visited ++ [e0.1]) ≤ pathCost d (vs ++ [e0.1]) := by
      rw [h1, h2, hvs0]
      exact hsc
    have h4 : pathCost d (vs ++ [e0.1]) = ((e0 :: E').map (fun e => d e.1 e.2)).sum := by
      have hw := @euler_walk_closed_cost d _ _ hE (by simp)
      show pathCost d ((e0 :: E').map Prod.fst ++ [e0.1]) = _
      simpa using hw
    have h5 := euler_edge_sum hsym hMb hE
    rw [h4, h5] at h3
    exact h3

theorem shortcutEuler_nil (d : ℕ → ℕ → ℚ) : shortcutEuler d [] = none := rfl

theorem euler_nil_iff {M : Multiset (ℕ × ℕ)} {E : List (ℕ × ℕ)}
    (hE : IsEulerCircuit M E) : E = [] ↔ M = 0 := by
  constructor
  · intro h
    subst h
    exact hE.1.symm
  · intro h
    rw [h] at hE
    have := hE.1
    cases E with
    | nil => rfl
    | cons e t => simp at this

/-- Validity part of the shortcut analysis, independent of any property of
the distance matrix. -/
theorem shortcutEuler_valid {d : ℕ → ℕ → ℚ} {n : ℕ} {M : Multiset (ℕ × ℕ)}
    {E : List (ℕ × ℕ)}
    (hMb : ∀ e ∈ M, e.1 < n ∧ e.2 < n)
    (hcov : ∀ v < n, ∃ e ∈ M, v = e.1 ∨ v = e.2)
    (hE : IsEulerCircuit M E) (hne : E ≠ []) :
    ∃ tour c, shortcutEuler d E = some (tour, c) ∧ ValidTour n tour ∧
      c = pathCost d tour := by
  obtain ⟨e0, E', rfl⟩ := List.exists_cons_of_ne_nil hne
  set vs := (e0 :: E').map Prod.fst with hvs
  have hends := euler_edge_ends_lt hMb hE
  have hvsb : ∀ x ∈ vs, x < n := by
    intro x hx
    obtain ⟨e, he, rfl⟩ := List.mem_map.mp hx
    exact (hends e he).1
  set visited := firstOccur vs with hvisited
  have hfo : visited = e0.1 :: sfold (fun st x => decide (x ∉ st))
      (fun st x => insert x st) ({e0.1} : Finset ℕ) (E'.map Prod.fst) := by
    rw [hvisited, hvs]
    simp only [List.map_cons]
    exact firstOccur_cons e0.1 (E'.map Prod.fst)
  have hnd : visited.Nodup := firstOccur_nodup vs
  have hfin : visited.toFinset = Finset.range n := by
    ext x
    simp only [List.mem_toFinset, Finset.mem_range]
    constructor
    · intro hx
      exact hvsb x (firstOccur_subset hx)
    · intro hx
      obtain ⟨e, heM, hend⟩ := hcov x hx
      have := euler_endpoint_mem_fst hE hne e heM
      rcases hend with rfl | rfl
      · exact firstOccur_complete this.1
      · exact firstOccur_complete this.2
  have hlen : visited.length = n := by
    rw [← List.toFinset_card_of_nodup hnd, hfin, Finset.card_range]
  have hperm : visited.Perm (List.range n) := perm_range_of_nodup_toFinset hnd hfin
  refine ⟨visited ++ [e0.1], pathCost d (visited ++ [e0.1]), shortcutEuler_some, ?_, rfl⟩
  refine ⟨by simp [hlen], ?_, ?_⟩
  · rw [hfo, List.getLast?_concat]
    simp
  · have : (visited ++ [e0.1]).take n = visited := by
      rw [← hlen]
      exact List.take_left visited [e0.1]
    rw [this]
    exact hperm

/-- Contract of `nx.minimum_spanning_tree(G)` for the complete graph on the
`n` instance vertices: a spanning tree whose weight is the minimum. -/
def MstWitness (d : ℕ → ℕ → ℚ) (n : ℕ) (T : Finset (ℕ × ℕ)) : Prop :=
  IsSpanningTree (Finset.range n) T ∧ wSum d T = mstCost d (Finset.range n)

instance (d : ℕ → ℕ → ℚ) (n : ℕ) (T : Finset (ℕ × ℕ)) : Decidable (MstWitness d n T) :=
  inferInstanceAs (Decidable (_ ∧ _))

theorem spanning_incident {S : Finset ℕ} {T : Finset (ℕ × ℕ)} {v : ℕ}
    (hT : IsSpanningTree S T) (h2 : 2 ≤ S.card) (hv : v ∈ S) :
    ∃ e ∈ T, v = e.1 ∨ v = e.2 := by
  obtain ⟨u, hu, hne⟩ := @Finset.exists_ne_of_one_lt_card _ S (by omega) v
  have hreach := hT.2.2 v hv u hu
  rcases reachN_endpoint hreach with h | h
  · exact absurd (Finset.mem_singleton.mp h).symm hne
  · exact h

theorem doubleMG_mem {T : Finset (ℕ × ℕ)} {e : ℕ × ℕ} :
    e ∈ doubleMG T ↔ e ∈ T := by
  simp [doubleMG, Multiset.mem_add, ← Finset.mem_def, or_self]

theorem doubleMG_bound {n : ℕ} {T : Finset (ℕ × ℕ)}
    (hT : T ⊆ pairsOf (Finset.range n)) :
    ∀ e ∈ doubleMG T, e.1 < n ∧ e.2 < n := by
  intro e he
  have := mem_pairsOf.mp (hT (doubleMG_mem.mp he))
  exact ⟨by simpa using this.1, by simpa using this.2.1⟩

theorem doubleMG_cover {n : ℕ} {T : Finset (ℕ × ℕ)}
    (hT : IsSpanningTree (Finset.range n) T) (h2 : 2 ≤ n) :
    ∀ v < n, ∃ e ∈ doubleMG T, v = e.1 ∨ v = e.2 := by
  intro v hv
  obtain ⟨e, heT, hend⟩ := spanning_incident hT
    (by rwa [Finset.card_range]) (Finset.mem_range.mpr hv)
  exact ⟨e, doubleMG_mem.mpr heT, hend⟩

theorem doubleMG_sum (d : ℕ → ℕ → ℚ) (T : Finset (ℕ × ℕ)) :
    ((doubleMG T).map (fun e => d e.1 e.2)).sum = 2 * wSum d T := by
  rw [doubleMG, Multiset.map_add, Multiset.sum_add]
  rw [wSum, Finset.sum]
  ring

theorem doubleMG_ne_zero {T : Finset (ℕ × ℕ)} (h : T.Nonempty) : doubleMG T ≠ 0 := by
  intro hz
  rw [doubleMG] at hz
  have := Multiset.card_eq_zero.mpr hz
  rw [Multiset.card_add] at this
  obtain ⟨e, he⟩ := h
  have : T.card = 0 := by
    have hc : Multiset.card T.val = T.card := rfl
    omega
  rw [Finset.card_eq_zero] at this
  subst this
  exact absurd he (Finset.not_mem_empty e)

theorem spanning_two_le {n : ℕ} {T : Finset (ℕ × ℕ)}
    (hT : IsSpanningTree (Finset.range n) T) (hTne : T.Nonempty) : 2 ≤ n := by
  have := hT.2.1
  rw [Finset.card_range] at this
  have := Finset.card_pos.mpr hTne
  omega

/-- Validity of every tour returned by twice-around-the-tree (src/main.py
lines 78-108), for any spanning tree and any Eulerian circuit of its
doubling. -/
theorem twiceAroundTree_valid {d : ℕ → ℕ → ℚ} {n : ℕ} {T : Finset (ℕ × ℕ)}
    {E : List (ℕ × ℕ)} {tour : List ℕ} {c : ℚ}
    (hT : IsSpanningTree (Finset.range n) T)
    (hE : IsEulerCircuit (doubleMG T) E)
    (h : twiceAroundTree d E = some (tour, c)) :
    ValidTour n tour ∧ c = pathCost d tour := by
  have hne : E ≠ [] := by
    intro hnil
    rw [hnil, twiceAroundTree, shortcutEuler_nil] at h
    exact Option.noConfusion h
  have hTne : T.Nonempty := by
    rcases Finset.eq_empty_or_nonempty T with rfl | hne'
    · exact absurd ((euler_nil_iff hE).mpr (by simp [doubleMG])) hne
    · exact hne'
  have h2 : 2 ≤ n := spanning_two_le hT hTne
  obtain ⟨tour', c', heq, hvalid, hcost⟩ :=
    @shortcutEuler_valid d _ _ _ (doubleMG_bound hT.1) (doubleMG_cover hT h2) hE hne
  rw [twiceAroundTree] at h
  rw [heq] at h
  obtain ⟨rfl, rfl⟩ := Prod.mk.injEq _ _ _ _ ▸ Option.some.injEq _ _ ▸ h
  exact ⟨hvalid, hcost⟩

/-- Twice-around-the-tree guarantee: a valid tour of cost at most twice the
optimum, for `n ≥ 2` (the circuit of the doubled minimum spanning tree is
then nonempty). -/
theorem twiceAroundTree_le_two_opt {d : ℕ → ℕ → ℚ} {n : ℕ} {T : Finset (ℕ × ℕ)}
    {E : List (ℕ × ℕ)} (hsym : SymD d n) (hd : NonnegD d n) (htri : TriD d n)
    (h2 : 2 ≤ n) (hT : MstWitness d n T) (hE : IsEulerCircuit (doubleMG T) E) :
    ∃ tour c, twiceAroundTree d E = some (tour, c) ∧ ValidTour n tour ∧
      c = pathCost d tour ∧ c ≤ 2 * minHamCost d n := by
  have hTne : T.Nonempty := by
    rw [← Finset.card_pos, hT.1.2.1, Finset.card_range]
    omega
  have hne : E ≠ [] := by
    intro hnil
    exact doubleMG_ne_zero hTne ((euler_nil_iff hE).mp hnil)
  obtain ⟨tour, c, heq, hvalid, hcost, hle⟩ :=
    shortcutEuler_spec hsym htri (doubleMG_bound hT.1.1) (doubleMG_cover hT.1 h2) hE hne
  refine ⟨tour, c, heq, hvalid, hcost, ?_⟩
  rw [doubleMG_sum, hT.2] at hle
  have hmst := mstCost_le_minHamCost hsym hd (by omega : 1 ≤ n)
  linarith

/-- Degree of `v` in the edge set `T` (`mst.degree(v)` in the source). -/
def degT (T : Finset (ℕ × ℕ)) (v : ℕ) : ℕ :=
  (T.filter (fun e => e.1 = v ∨ e.2 = v)).card

/-- Odd-degree vertices of the spanning tree (src/main.py line 124:
`[v for v in mst.nodes if mst.degree(v) % 2 == 1]`; the tree spans all
instance vertices, so its node set is `range n`). -/
def oddVerts (n : ℕ) (T : Finset (ℕ × ℕ)) : Finset ℕ :=
  (Finset.range n).filter (fun v => degT T v % 2 = 1)

theorem degT_sum {n : ℕ} {T : Finset (ℕ × ℕ)} (hT : T ⊆ pairsOf (Finset.range n)) :
    ∑ v ∈ Finset.range n, degT T v = 2 * T.card := by
  have h1 : ∀ v, degT T v = ∑ e ∈ T, if e.1 = v ∨ e.2 = v then 1 else 0 := by
    intro v
    rw [degT, Finset.card_filter]
  calc ∑ v ∈ Finset.range n, degT T v
      = ∑ v ∈ Finset.range n, ∑ e ∈ T, if e.1 = v ∨ e.2 = v then 1 else 0 := by
        exact Finset.sum_congr rfl (fun v _ => h1 v)
  _ = ∑ e ∈ T, ∑ v ∈ Finset.range n, if e.1 = v ∨ e.2 = v then 1 else 0 :=
        Finset.sum_comm
  _ = ∑ e ∈ T, 2 := by
        apply Finset.sum_congr rfl
        intro e he
        have hme := mem_pairsOf.mp (hT he)
        rw [← Finset.card_filter]
        have : (Finset.range n).filter (fun v => e.1 = v ∨ e.2 = v) = {e.1, e.2} := by
          ext v
          simp only [Finset.mem_filter, Finset.mem_range, Finset.mem_insert,
            Finset.mem_singleton]
          constructor
          · rintro ⟨_, rfl | rfl⟩
            · exact Or.inl rfl
            · exact Or.inr rfl
          · rintro (rfl | rfl)
            · exact ⟨by simpa using hme.1, Or.inl rfl⟩
            · exact ⟨by simpa using hme.2.1, Or.inr rfl⟩
        rw [this, Finset.card_insert_of_not_mem (by simpa using hme.2.2.ne),
          Finset.card_singleton]
  _ = 2 * T.card := by rw [Finset.sum_const, smul_eq_mul, mul_comm]

theorem oddVerts_even_card {n : ℕ} {T : Finset (ℕ × ℕ)}
    (hT : T ⊆ pairsOf (Finset.range n)) : Even (oddVerts n T).card := by
  have hsplit := Finset.sum_filter_add_sum_filter_not (Finset.range n)
    (fun v => degT T v % 2 = 1) (degT T)
  rw [degT_sum hT] at hsplit
  have h1 : (∑ v ∈ (Finset.range n).filter (fun v => degT T v % 2 = 1), degT T v) % 2 =
      ((Finset.range n).filter (fun v => degT T v % 2 = 1)).card % 2 := by
    rw [Finset.sum_nat_mod]
    have : ∑ v ∈ (Finset.range n).filter (fun v => degT T v % 2 = 1), degT T v % 2 =
        ∑ _v ∈ (Finset.range n).filter (fun v => degT T v % 2 = 1), 1 := by
      apply Finset.sum_congr rfl
      intro v hv
      exact (Finset.mem_filter.mp hv).2
    rw [this, Finset.sum_const, smul_eq_mul, mul_one]
  have h2 : (∑ v ∈ (Finset.range n).filter (fun v => ¬(degT T v % 2 = 1)), degT T v) % 2
      = 0 := by
    rw [Finset.sum_nat_mod]
    have : ∑ v ∈ (Finset.range n).filter (fun v => ¬(degT T v % 2 = 1)), degT T v % 2 =
        ∑ _v ∈ (Finset.range n).filter (fun v => ¬(degT T v % 2 = 1)), 0 := by
      apply Finset.sum_congr rfl
      intro v hv
      have := (Finset.mem_filter.mp hv).2
      omega
    rw [this, Finset.sum_const, smul_eq_mul, mul_zero]
    rfl
  rw [Nat.even_iff]
  show (oddVerts n T).card % 2 = 0
  have hcardeq : (oddVerts n T).card =
      ((Finset.range n).filter (fun v => degT T v % 2 = 1)).card := rfl
  omega

/-- Perfect matching over the vertex set `O`: a set of canonical pairs, each
vertex of `O` incident to exactly one of them.  This is the contract of
`nx.algorithms.matching.min_weight_matching` together with minimality of
the total weight (`MatchingWitness` below). -/
def IsPerfectMatchingOn (O : Finset ℕ) (M : Finset (ℕ × ℕ)) : Prop :=
  M ⊆ pairsOf O ∧ ∀ v ∈ O, (M.filter (fun e => e.1 = v ∨ e.2 = v)).card = 1

instance (O : Finset ℕ) (M : Finset (ℕ × ℕ)) : Decidable (IsPerfectMatchingOn O M) :=
  inferInstanceAs (Decidable (_ ∧ _))

/-- Minimum total weight over all perfect matchings of the complete graph
on `O`. -/
def minMatchingCost (d : ℕ → ℕ → ℚ) (O : Finset ℕ) : ℚ :=
  minCostOver ((pairsOf O).powerset.filter (fun M => IsPerfectMatchingOn O M)) (wSum d)

/-- Contract of `nx.algorithms.matching.min_weight_matching` on the complete
graph over the odd-degree vertices. -/
def MatchingWitness (d : ℕ → ℕ → ℚ) (O : Finset ℕ) (M : Finset (ℕ × ℕ)) : Prop :=
  IsPerfectMatchingOn O M ∧ wSum d M = minMatchingCost d O

instance (d : ℕ → ℕ → ℚ) (O : Finset ℕ) (M : Finset (ℕ × ℕ)) :
    Decidable (MatchingWitness d O M) :=
  inferInstanceAs (Decidable (_ ∧ _))

theorem minMatchingCost_le {d : ℕ → ℕ → ℚ} {O : Finset ℕ} {M : Finset (ℕ × ℕ)}
    (hM : IsPerfectMatchingOn O M) : minMatchingCost d O ≤ wSum d M := by
  apply minCostOver_le
  simp [Finset.mem_filter, Finset.mem_powerset, hM, hM.1]

/-- Pair up the elements of a list two by two (the two alternating perfect
matchings carved out of a cycle through the odd-degree vertices). -/
def pairUp : List ℕ → List (ℕ × ℕ)
  | a :: b :: t => (a, b) :: pairUp t
  | _ => []

/-- Sum of the distances of the consecutive disjoint pairs of `l`. -/
def rawSum (d : ℕ → ℕ → ℚ) (l : List ℕ) : ℚ :=
  ((pairUp l).map (fun e => d e.1 e.2)).sum

theorem rawSum_cons_cons (d : ℕ → ℕ → ℚ) (a b : ℕ) (t : List ℕ) :
    rawSum d (a :: b :: t) = d a b + rawSum d t := by
  simp [rawSum, pairUp]

theorem pairUp_endpoints :
    ∀ {l : List ℕ} {e : ℕ × ℕ}, e ∈ pairUp l → e.1 ∈ l ∧ e.2 ∈ l
  | [], _, h => by simp [pairUp] at h
  | [_], _, h => by simp [pairUp] at h
  | a :: b :: t, e, h => by
    rcases List.mem_cons.mp h with rfl | h
    · exact ⟨by simp, by simp⟩
    · have := pairUp_endpoints h
      exact ⟨by simp [this.1], by simp [this.2]⟩

theorem pairUp_ne :
    ∀ {l : List ℕ}, l.Nodup → ∀ e ∈ pairUp l, e.1 ≠ e.2
  | [], _, _, h => by simp [pairUp] at h
  | [_], _, _, h => by simp [pairUp] at h
  | a :: b :: t, hnd, e, h => by
    rcases List.mem_cons.mp h with rfl | h
    · intro hab
      have hab' : a = b := hab
      exact (List.nodup_cons.mp hnd).1 (by simp [hab'])
    · exact pairUp_ne ((hnd.of_cons).of_cons) e h

theorem endpoint_of_normPair_eq {x y : ℕ} {e : ℕ × ℕ}
    (heq : normPair e.1 e.2 = normPair x y) : x = e.1 ∨ x = e.2 := by
  have hx : x = (normPair x y).1 ∨ x = (normPair x y).2 := by
    rcases normPair_fst_snd x y with ⟨h1, _⟩ | ⟨_, h2⟩
    · exact Or.inl h1.symm
    · exact Or.inr h2.symm
  rw [← heq] at hx
  rcases normPair_fst_snd e.1 e.2 with ⟨h3, h4⟩ | ⟨h3, h4⟩ <;> rcases hx with h | h
  · exact Or.inl (by rw [h, h3])
  · exact Or.inr (by rw [h, h4])
  · exact Or.inr (by rw [h, h3])
  · exact Or.inl (by rw [h, h4])

theorem pairUp_map_norm_nodup :
    ∀ {l : List ℕ}, l.Nodup →
      ((pairUp l).map (fun e => normPair e.1 e.2)).Nodup
  | [], _ => by simp [pairUp]
  | [_], _ => by simp [pairUp]
  | a :: b :: t, hnd => by
    have htnd : t.Nodup := (hnd.of_cons).of_cons
    have hat : a ∉ t := fun hc => (List.nodup_cons.mp hnd).1 (by simp [hc])
    rw [pairUp, List.map_cons]
    refine List.nodup_cons.mpr ⟨?_, pairUp_map_norm_nodup htnd⟩
    intro hmem
    have hmem' : normPair a b ∈ (pairUp t).map (fun e => normPair e.1 e.2) := hmem
    obtain ⟨e, he, heq⟩ := List.mem_map.mp hmem'
    have hend := pairUp_endpoints he
    rcases endpoint_of_normPair_eq heq with h | h
    · exact hat (by rw [h]; exact hend.1)
    · exact hat (by rw [h]; exact hend.2)

theorem incident_normPair_iff {x y v : ℕ} :
    ((normPair x y).1 = v ∨ (normPair x y).2 = v) ↔ (x = v ∨ y = v) := by
  rcases normPair_fst_snd x y with ⟨h1, h2⟩ | ⟨h1, h2⟩ <;> rw [h1, h2] <;> tauto

theorem pairUp_tail_not_incident {t : List ℕ} {v : ℕ} (hvt : v ∉ t)
    {e : ℕ × ℕ} (he : e ∈ (pairUp t).map (fun f => normPair f.1 f.2)) :
    ¬(e.1 = v ∨ e.2 = v) := by
  intro hinc
  obtain ⟨f, hf, rfl⟩ := List.mem_map.mp he
  have hend := pairUp_endpoints hf
  rcases incident_normPair_iff.mp hinc with h | h
  · exact hvt (by rw [← h]; exact hend.1)
  · exact hvt (by rw [← h]; exact hend.2)

theorem pairUp_perfectMatching :
    ∀ {l : List ℕ}, l.Nodup → Even l.length →
      IsPerfectMatchingOn l.toFinset
        ((pairUp l).map (fun e => normPair e.1 e.2)).toFinset
  | [], _, _ =>
    ⟨by intro e he; simp [pairUp] at he, by intro v hv; simp at hv⟩
  | [a], _, heven => by
    exfalso
    rw [Nat.even_iff] at heven
    simp at heven
  | a :: b :: t, hnd, heven => by
    have htnd : t.Nodup := (hnd.of_cons).of_cons
    have hteven : Even t.length := by
      rw [Nat.even_iff] at heven ⊢
      simp only [List.length_cons] at heven
      omega
    have iht := pairUp_perfectMatching htnd hteven
    have hat : a ∉ t := fun hc => (List.nodup_cons.mp hnd).1 (by simp [hc])
    have hbt : b ∉ t := fun hc => (List.nodup_cons.mp (hnd.of_cons)).1 hc
    have hab : a ≠ b := fun hc => (List.nodup_cons.mp hnd).1 (by simp [hc])
    constructor
    · intro e he
      simp only [List.mem_toFinset] at he
      obtain ⟨f, hf, rfl⟩ := List.mem_map.mp he
      have hend := pairUp_endpoints hf
      have hne := pairUp_ne hnd f hf
      rw [mem_pairsOf]
      have h1mem : (normPair f.1 f.2).1 ∈ a :: b :: t := by
        rcases normPair_fst_snd f.1 f.2 with ⟨h1, _⟩ | ⟨h1, _⟩ <;> rw [h1]
        · exact hend.1
        · exact hend.2
      have h2mem : (normPair f.1 f.2).2 ∈ a :: b :: t := by
        rcases normPair_fst_snd f.1 f.2 with ⟨_, h2⟩ | ⟨_, h2⟩ <;> rw [h2]
        · exact hend.2
        · exact hend.1
      refine ⟨by simpa using h1mem, by simpa using h2mem, ?_⟩
      show min f.1 f.2 < max f.1 f.2
      rcases lt_or_gt_of_ne hne with h | h
      · rw [min_eq_left h.le, max_eq_right h.le]; exact h
      · rw [min_eq_right h.le, max_eq_left h.le]; exact h
    · intro v hv
      simp only [List.mem_toFinset] at hv
      have hstep : ((pairUp (a :: b :: t)).map (fun e => normPair e.1 e.2)).toFinset =
          insert (normPair a b) ((pairUp t).map (fun e => normPair e.1 e.2)).toFinset := by
        rw [pairUp, List.map_cons, List.toFinset_cons]
      rcases List.mem_cons.mp hv with rfl | hv'
      · rw [hstep, Finset.filter_insert, if_pos (incident_normPair_iff.mpr (Or.inl rfl))]
        have hempty : ((pairUp t).map (fun e => normPair e.1 e.2)).toFinset.filter
            (fun e => e.1 = v ∨ e.2 = v) = ∅ := by
          apply Finset.filter_eq_empty_iff.mpr
          intro e he
          exact pairUp_tail_not_incident hat (List.mem_toFinset.mp he)
        rw [hempty, Finset.card_insert_of_not_mem (Finset.not_mem_empty _),
          Finset.card_empty]
      · rcases List.mem_cons.mp hv' with rfl | hvt
        · rw [hstep, Finset.filter_insert, if_pos (incident_normPair_iff.mpr (Or.inr rfl))]
          have hempty : ((pairUp t).map (fun e => normPair e.1 e.2)).toFinset.filter
              (fun e => e.1 = v ∨ e.2 = v) = ∅ := by
            apply Finset.filter_eq_empty_iff.mpr
            intro e he
            exact pairUp_tail_not_incident hbt (List.mem_toFinset.mp he)
          rw [hempty, Finset.card_insert_of_not_mem (Finset.not_mem_empty _),
            Finset.card_empty]
        · have hnotinc : ¬((normPair a b).1 = v ∨ (normPair a b).2 = v) := by
            intro hinc
            rcases incident_normPair_iff.mp hinc with h | h
            · exact hat (by rw [h]; exact hvt)
            · exact hbt (by rw [h]; exact hvt)
          rw [hstep, Finset.filter_insert, if_neg hnotinc]
          exact iht.2 v (List.mem_toFinset.mpr hvt)

theorem pairUp_split (d : ℕ → ℕ → ℚ) :
    ∀ (t : List ℕ), Even t.length → ∀ (a b : ℕ),
      rawSum d (a :: b :: t) + rawSum d (b :: (t ++ [a])) =
        pathCost d (a :: b :: t) + d ((a :: b :: t).getLastD 0) a
  | [], _, a, b => by
    simp only [rawSum, pairUp, List.nil_append, List.map_cons, List.map_nil,
      List.sum_cons, List.sum_nil, pathCost, List.getLastD_cons, List.getLastD_nil]
    ring
  | [c], heven, a, b => by
    exfalso
    rw [Nat.even_iff] at heven
    simp at heven
  | c :: e :: t', heven, a, b => by
    have ht' : Even t'.length := by
      rw [Nat.even_iff] at heven ⊢
      simp only [List.length_cons] at heven
      omega
    have ih := pairUp_split d t' ht' a e
    have e1 : rawSum d (a :: b :: c :: e :: t') =
        d a b + (d c e + rawSum d t') := by
      rw [rawSum_cons_cons, rawSum_cons_cons]
    have e2 : rawSum d (b :: (c :: e :: t' ++ [a])) =
        d b c + rawSum d (e :: (t' ++ [a])) := by
      have h : b :: (c :: e :: t' ++ [a]) = b :: c :: (e :: (t' ++ [a])) := by simp
      rw [h, rawSum_cons_cons]
    have e3 : rawSum d (a :: e :: t') = d a e + rawSum d t' := rawSum_cons_cons d a e t'
    have e4 : pathCost d (a :: e :: t') = d a e + pathCost d (e :: t') := rfl
    have e5 : pathCost d (a :: b :: c :: e :: t') =
        d a b + (d b c + (d c e + pathCost d (e :: t'))) := rfl
    have e6 : (a :: b :: c :: e :: t').getLastD 0 = (e :: t').getLastD 0 := by
      simp [List.getLastD_cons]
    have e7 : (a :: e :: t').getLastD 0 = (e :: t').getLastD 0 := by
      simp [List.getLastD_cons]
    rw [e1, e2, e5, e6]
    rw [e3, e4, e7] at ih
    linarith

theorem sfold_filter_eq (p : ℕ → Bool) :
    ∀ (l : List ℕ), sfold (fun _ v => p v) (fun st _ => st) () l = l.filter p
  | [] => by simp [sfold]
  | v :: t => by
    by_cases hv : p v
    · rw [sfold, if_pos hv, sfold_filter_eq p t, List.filter_cons, if_pos hv]
    · rw [sfold, if_neg (by simpa using hv), sfold_filter_eq p t, List.filter_cons,
        if_neg (by simpa using hv)]

/-- Rotation of a cycle list by one position. -/
def rotate1 : List ℕ → List ℕ
  | [] => []
  | a :: t => t ++ [a]

theorem wSum_pairUp {d : ℕ → ℕ → ℚ} {n : ℕ} (hsym : SymD d n) {l : List ℕ}
    (hnd : l.Nodup) (hb : ∀ x ∈ l, x < n) :
    wSum d ((pairUp l).map (fun e => normPair e.1 e.2)).toFinset = rawSum d l := by
  rw [wSum, List.sum_toFinset _ (pairUp_map_norm_nodup hnd), List.map_map, rawSum]
  apply congrArg List.sum
  apply List.map_congr_left
  intro f hf
  have hend := pairUp_endpoints hf
  have h1 : f.1 < n := hb _ hend.1
  have h2 : f.2 < n := hb _ hend.2
  show d (normPair f.1 f.2).1 (normPair f.1 f.2).2 = d f.1 f.2
  rcases normPair_fst_snd f.1 f.2 with ⟨ha, hb'⟩ | ⟨ha, hb'⟩ <;> rw [ha, hb']
  exact hsym f.2 h2 f.1 h1

/-- The minimum-weight perfect matching on any even subset `O` of the
vertices costs at most half the optimal tour: shortcut the optimal cycle to
`O`, split the resulting even cycle into its two alternating perfect
matchings, and take the cheaper one. -/
theorem two_mul_minMatching_le {d : ℕ → ℕ → ℚ} {n : ℕ} {O : Finset ℕ}
    (hsym : SymD d n) (hd : NonnegD d n) (htri : TriD d n) (hn : 1 ≤ n)
    (hO : O ⊆ Finset.range n) (heven : Even O.card) :
    2 * minMatchingCost d O ≤ minHamCost d n := by
  rcases Finset.eq_empty_or_nonempty O with rfl | hOne
  · have hle : minMatchingCost d (∅ : Finset ℕ) ≤ wSum d (∅ : Finset (ℕ × ℕ)) :=
      minMatchingCost_le ⟨by simp, by intro v hv; simp at hv⟩
    rw [wSum, Finset.sum_empty] at hle
    have := minHamCost_nonneg hd hn
    linarith
  · obtain ⟨σ, _, hperm, heq⟩ := @exists_optCycle d _ hn
    obtain ⟨o, hoO⟩ := hOne
    have hoσ : o ∈ σ := hperm.mem_iff.mpr (by simpa using hO hoO)
    obtain ⟨A, B, rfl⟩ := List.append_of_mem hoσ
    set σ' : List ℕ := (o :: B) ++ A with hσ'
    have hσ'' : σ' = o :: (B ++ A) := by rw [hσ']; simp
    have hperm' : σ'.Perm (List.range n) := (List.perm_append_comm).trans hperm
    have hrot : closedCost d σ' = minHamCost d n := by
      rw [hσ', closedCost_rotate d (o :: B) A]
      exact heq
    have hnd' : σ'.Nodup := hperm'.nodup_iff.mpr (List.nodup_range n)
    have hb' : ∀ x ∈ σ', x < n := fun x hx => by
      have := hperm'.mem_iff.mp hx
      simpa using this
    set oc : List ℕ := σ'.filter (fun v => v ∈ O) with hoc
    have hocform : oc = o :: (B ++ A).filter (fun v => v ∈ O) := by
      rw [hoc, hσ'']
      rw [List.filter_cons, if_pos (by simpa using hoO)]
    have hocnd : oc.Nodup := hnd'.filter _
    have hocfin : oc.toFinset = O := by
      rw [hoc, List.toFinset_filter, toFinset_of_perm_range hperm']
      ext x
      simp only [Finset.mem_filter, Finset.mem_range, decide_eq_true_eq]
      exact ⟨fun h => h.2, fun h => ⟨Finset.mem_range.mp (hO h), h⟩⟩
    have hoclen : oc.length = O.card := by
      rw [← hocfin, List.toFinset_card_of_nodup hocnd]
    have hocb : ∀ x ∈ oc, x < n := fun x hx => hb' x (List.mem_of_mem_filter hx)
    have hon : o < n := by simpa using hO hoO
    have hocne : oc ≠ [] := by rw [hocform]; simp
    have hocle : closedCost d oc ≤ minHamCost d n := by
      rw [← hrot]
      have hBA : ∀ x ∈ B ++ A, x < n := by
        intro x hx
        apply hb'
        rw [hσ'']
        exact List.mem_cons_of_mem o hx
      have hsc := sfold_cost_le (fun _ v => decide (v ∈ O)) (fun st _ => st) d n htri
        (B ++ A) () o o hon hon hBA
      rw [sfold_filter_eq] at hsc
      have h1 : closedCost d oc = pathCost d oc + d (oc.getLastD 0) o := by
        rw [closedCost]
        have htake : oc.take 1 = [o] := by rw [hocform]; rfl
        rw [htake, pathCost_concat d oc o hocne]
      have h2 : closedCost d σ' = pathCost d σ' + d (σ'.getLastD 0) o := by
        rw [closedCost]
        have htake : σ'.take 1 = [o] := by rw [hσ'']; rfl
        rw [htake, pathCost_concat d σ' o (by rw [hσ'']; simp)]
      rw [h1, h2, hocform, hσ'']
      exact hsc
    have hcard2 : 2 ≤ O.card := by
      rcases heven with ⟨k, hk⟩
      have := Finset.card_pos.mpr ⟨o, hoO⟩
      omega
    clear_value oc
    obtain ⟨x, y, t, hxyt⟩ : ∃ x y t, oc = x :: y :: t := by
      rcases oc with _ | ⟨x, _ | ⟨y, t⟩⟩
      · exact absurd rfl hocne
      · exfalso
        simp at hoclen
        omega
      · exact ⟨x, y, t, rfl⟩
    have hteven : Even t.length := by
      have : oc.length = t.length + 2 := by rw [hxyt]; simp
      rw [hoclen] at this
      rcases heven with ⟨k, hk⟩
      exact ⟨k - 1, by omega⟩
    have hsplit := pairUp_split d t hteven x y
    have hclosed : closedCost d oc =
        pathCost d (x :: y :: t) + d ((x :: y :: t).getLastD 0) x := by
      rw [hxyt, closedCost]
      have htake : (x :: y :: t).take 1 = [x] := rfl
      rw [htake, pathCost_concat d (x :: y :: t) x (by simp)]
    have hrotform : rotate1 oc = y :: (t ++ [x]) := by
      rw [hxyt, rotate1]
      simp
    have hoc2perm : (rotate1 oc).Perm oc := by
      rw [hrotform, hxyt]
      have h1 : (y :: (t ++ [x])).Perm ((y :: t) ++ [x]) := by simp
      have h2 : ((y :: t) ++ [x]).Perm ([x] ++ (y :: t)) := List.perm_append_comm
      have h3 : ([x] ++ (y :: t)) = x :: y :: t := by simp
      exact h1.trans (h2.trans (h3 ▸ List.Perm.refl _))
    have hoc2nd : (rotate1 oc).Nodup := hoc2perm.nodup_iff.mpr hocnd
    have hoc2fin : (rotate1 oc).toFinset = O := by
      rw [List.toFinset_eq_of_perm _ _ hoc2perm, hocfin]
    have hoc2b : ∀ z ∈ rotate1 oc, z < n := fun z hz =>
      hocb z (hoc2perm.mem_iff.mp hz)
    have hm1 : IsPerfectMatchingOn O
        ((pairUp oc).map (fun e => normPair e.1 e.2)).toFinset := by
      rw [← hocfin]
      exact pairUp_perfectMatching hocnd (by rw [hoclen]; exact heven)
    have hm2 : IsPerfectMatchingOn O
        ((pairUp (rotate1 oc)).map (fun e => normPair e.1 e.2)).toFinset := by
      rw [← hoc2fin]
      exact pairUp_perfectMatching hoc2nd
        (by rw [hoc2perm.length_eq, hoclen]; exact heven)
    have hw1 : wSum d ((pairUp oc).map (fun e => normPair e.1 e.2)).toFinset =
        rawSum d oc := wSum_pairUp hsym hocnd hocb
    have hw2 : wSum d ((pairUp (rotate1 oc)).map (fun e => normPair e.1 e.2)).toFinset =
        rawSum d (rotate1 oc) := wSum_pairUp hsym hoc2nd hoc2b
    have hle1 : minMatchingCost d O ≤ rawSum d oc := hw1 ▸ minMatchingCost_le hm1
    have hle2 : minMatchingCost d O ≤ rawSum d (rotate1 oc) :=
      hw2 ▸ minMatchingCost_le hm2
    have hsum : rawSum d oc + rawSum d (rotate1 oc) = closedCost d oc := by
      rw [hclosed, hrotform, hxyt]
      exact hsplit
    linarith

theorem oddVerts_subset (n : ℕ) (T : Finset (ℕ × ℕ)) :
    oddVerts n T ⊆ Finset.range n := Finset.filter_subset _ _

theorem unionMG_bound {n : ℕ} {T M : Finset (ℕ × ℕ)}
    (hT : T ⊆ pairsOf (Finset.range n)) (hM : M ⊆ pairsOf (oddVerts n T)) :
    ∀ e ∈ unionMG T M, e.1 < n ∧ e.2 < n := by
  intro e he
  rcases Multiset.mem_add.mp he with h | h
  · have := mem_pairsOf.mp (hT (by rwa [← Finset.mem_def] at h))
    exact ⟨by simpa using this.1, by simpa using this.2.1⟩
  · have := mem_pairsOf.mp (hM (by rwa [← Finset.mem_def] at h))
    have h1 := oddVerts_subset n T this.1
    have h2 := oddVerts_subset n T this.2.1
    exact ⟨by simpa using h1, by simpa using h2⟩

theorem unionMG_cover {n : ℕ} {T M : Finset (ℕ × ℕ)}
    (hT : IsSpanningTree (Finset.range n) T) (h2 : 2 ≤ n) :
    ∀ v < n, ∃ e ∈ unionMG T M, v = e.1 ∨ v = e.2 := by
  intro v hv
  obtain ⟨e, heT, hend⟩ := spanning_incident hT
    (by rwa [Finset.card_range]) (Finset.mem_range.mpr hv)
  exact ⟨e, Multiset.mem_add.mpr (Or.inl heT), hend⟩

theorem unionMG_sum (d : ℕ → ℕ → ℚ) (T M : Finset (ℕ × ℕ)) :
    ((unionMG T M).map (fun e => d e.1 e.2)).sum = wSum d T + wSum d M := by
  rw [unionMG, Multiset.map_add, Multiset.sum_add]
  rfl

theorem unionMG_ne_zero_two_le {n : ℕ} {T M : Finset (ℕ × ℕ)}
    (hT : IsSpanningTree (Finset.range n) T) (hM : M ⊆ pairsOf (oddVerts n T))
    (h : unionMG T M ≠ 0) : 2 ≤ n := by
  rcases Multiset.exists_mem_of_ne_zero h with ⟨e, he⟩
  rcases Multiset.mem_add.mp he with h' | h'
  · exact spanning_two_le hT ⟨e, by rwa [← Finset.mem_def] at h'⟩
  · have hme := mem_pairsOf.mp (hM (by rwa [← Finset.mem_def] at h'))
    have h1 := Finset.mem_range.mp (oddVerts_subset n T hme.1)
    have h2 := Finset.mem_range.mp (oddVerts_subset n T hme.2.1)
    have := hme.2.2
    omega

/-- Validity of every tour returned by Christofides (src/main.py lines
110-154), for any spanning tree, matching over its odd vertices, and
Eulerian circuit of their union. -/
theorem christofides_valid {d : ℕ → ℕ → ℚ} {n : ℕ} {T M : Finset (ℕ × ℕ)}
    {E : List (ℕ × ℕ)} {tour : List ℕ} {c : ℚ}
    (hT : IsSpanningTree (Finset.range n) T)
    (hM : M ⊆ pairsOf (oddVerts n T))
    (hE : IsEulerCircuit (unionMG T M) E)
    (h : christofides d E = some (tour, c)) :
    ValidTour n tour ∧ c = pathCost d tour := by
  have hne : E ≠ [] := by
    intro hnil
    rw [hnil, christofides, shortcutEuler_nil] at h
    exact Option.noConfusion h
  have hMGne : unionMG T M ≠ 0 := fun hz => hne ((euler_nil_iff hE).mpr hz)
  have h2 : 2 ≤ n := unionMG_ne_zero_two_le hT hM hMGne
  obtain ⟨tour', c', heq, hvalid, hcost⟩ :=
    @shortcutEuler_valid d _ _ _ (unionMG_bound hT.1 hM) (unionMG_cover hT h2) hE hne
  rw [christofides, heq] at h
  obtain ⟨rfl, rfl⟩ := Prod.mk.injEq _ _ _ _ ▸ Option.some.injEq _ _ ▸ h
  exact ⟨hvalid, hcost⟩

/-- Christofides guarantee: a valid tour of cost at most one and a half
times the optimum, for `n ≥ 2`, when the spanning tree is minimum and the
matching on its odd-degree vertices is a minimum-weight perfect matching. -/
theorem christofides_le_three_halves_opt {d : ℕ → ℕ → ℚ} {n : ℕ}
    {T M : Finset (ℕ × ℕ)} {E : List (ℕ × ℕ)}
    (hsym : SymD d n) (hd : NonnegD d n) (htri : TriD d n) (h2 : 2 ≤ n)
    (hT : MstWitness d n T) (hM : MatchingWitness d (oddVerts n T) M)
    (hE : IsEulerCircuit (unionMG T M) E) :
    ∃ tour c, christofides d E = some (tour, c) ∧ ValidTour n tour ∧
      c = pathCost d tour ∧ c ≤ (3 / 2) * minHamCost d n := by
  have hTne : T.Nonempty := by
    rw [← Finset.card_pos, hT.1.2.1, Finset.card_range]
    omega
  have hMGne : unionMG T M ≠ 0 := by
    intro hz
    rw [unionMG] at hz
    have h1 : T.val = 0 := by
      have := congrArg Multiset.card hz
      rw [Multiset.card_add] at this
      simp only [Multiset.card_zero] at this
      have h0 : Multiset.card T.val = 0 := by omega
      exact Multiset.card_eq_zero.mp h0
    obtain ⟨e, he⟩ := hTne
    have he' : e ∈ T.val := he
    rw [h1] at he'
    exact absurd he' (Multiset.not_mem_zero e)
  have hne : E ≠ [] := fun hnil => hMGne ((euler_nil_iff hE).mp hnil)
  obtain ⟨tour, c, heq, hvalid, hcost, hle⟩ :=
    shortcutEuler_spec hsym htri (unionMG_bound hT.1.1 hM.1.1)
      (unionMG_cover hT.1 h2) hE hne
  refine ⟨tour, c, heq, hvalid, hcost, ?_⟩
  rw [unionMG_sum, hT.2, hM.2] at hle
  have hmst := mstCost_le_minHamCost hsym hd (by omega : 1 ≤ n)
  have hmatch := two_mul_minMatching_le hsym hd htri (by omega : 1 ≤ n)
    (oddVerts_subset n T) (oddVerts_even_card hT.1.1)
  linarith

/-- Search node of the branch-and-bound priority queue: the tuple
`(bound, cost_so_far, path, visited)` of src/main.py lines 182 and 209. -/
structure BBNode where
  bound : ℚ
  cost : ℚ
  path : List ℕ
  visited : Finset ℕ
deriving DecidableEq

/-- Python lexicographic comparison of integer lists (used on the `path`
component of the queue tuples). -/
def pathLtB : List ℕ → List ℕ → Bool
  | [], [] => false
  | [], _ :: _ => true
  | _ :: _, [] => false
  | a :: as, b :: bs =>
    if a < b then true else if b < a then false else pathLtB as bs

/-- Python comparison of two queue tuples `(bound, cost, path, visited)`:
lexicographic, with the set component compared by strict inclusion (Python
`<` on sets) — it is never reached because frontier paths are pairwise
distinct (see the `ReachState` invariants). -/
def nodeLtB (a b : BBNode) : Bool :=
  decide (a.bound < b.bound) ||
    (decide (a.bound = b.bound) &&
      (decide (a.cost < b.cost) ||
        (decide (a.cost = b.cost) &&
          (pathLtB a.path b.path ||
            (decide (a.path = b.path) && decide (a.visited ⊂ b.visited))))))

/-- `heappop`: remove and return the least entry of the queue.  With keys
pairwise distinct (guaranteed by the path-distinctness invariant) the heap's
root is the unique minimum, so the heap is faithfully modelled by its
multiset of entries. -/
def popMin : List BBNode → Option (BBNode × List BBNode)
  | [] => none
  | h :: t =>
    let m := t.foldl (fun mi x => if nodeLtB x mi then x else mi) h
    some (m, (h :: t).erase m)

/-- State of the branch-and-bound loop: the count of elapsed-time checks
performed so far (indexing the timeout oracle), the priority queue, and the
incumbent tour and cost (`best_tour`, `best_cost`; `⊤` = `float('inf')`). -/
structure BBState where
  ctr : ℕ
  frontier : List BBNode
  best : Option (List ℕ)
  bc : WithTop ℚ
deriving DecidableEq

inductive StepRes where
  | finished (best : Option (List ℕ)) (bc : WithTop ℚ)
  | timeout
  | next (s : BBState)
deriving DecidableEq

/-- Child node appended for an unvisited `v` (src/main.py lines 204-209):
exact cost so far plus the `compute_bound` MST lower bound over the
unvisited vertices together with `v`. -/
def childNode (d : ℕ → ℕ → ℚ) (N : ℕ) (nd : BBNode) (v : ℕ) : BBNode :=
  { bound := nd.cost + d (nd.path.getLastD 0) v +
      mstCost d (insert v ((Finset.range N) \ (insert v nd.visited)))
    cost := nd.cost + d (nd.path.getLastD 0) v
    path := nd.path ++ [v]
    visited := insert v nd.visited }

/-- Expansion loop `for next_node in range(N)` (src/main.py lines 202-209).
Each `compute_bound` call first checks the clock (line 169), consuming one
oracle index; `none` models the `TimeoutError` raised there. -/
def expandGo (d : ℕ → ℕ → ℚ) (N : ℕ) (oracle : ℕ → Bool) (nd : BBNode)
    (bc : WithTop ℚ) : List ℕ → ℕ → List BBNode → Option (List BBNode × ℕ)
  | [], ctr, acc => some (acc, ctr)
  | v :: vs, ctr, acc =>
    if v ∈ nd.visited then expandGo d N oracle nd bc vs ctr acc
    else if oracle ctr then none
    else if ((childNode d N nd v).bound : WithTop ℚ) < bc then
      expandGo d N oracle nd bc vs (ctr + 1) (acc ++ [childNode d N nd v])
    else expandGo d N oracle nd bc vs (ctr + 1) acc

/-- One iteration of the while-loop (src/main.py lines 187-209): check the
clock, pop the least node, prune it against the incumbent, and either close
the tour (all vertices visited) or expand its children. -/
def bbStep (d : ℕ → ℕ → ℚ) (N : ℕ) (oracle : ℕ → Bool) (s : BBState) : StepRes :=
  match popMin s.frontier with
  | none => .finished s.best s.bc
  | some (nd, rest) =>
    if oracle s.ctr then .timeout
    else if s.bc ≤ (nd.bound : WithTop ℚ) then
      .next ⟨s.ctr + 1, rest, s.best, s.bc⟩
    else if nd.visited.card = N then
      if ((nd.cost + d (nd.path.getLastD 0) 0 : ℚ) : WithTop ℚ) < s.bc then
        .next ⟨s.ctr + 1, rest, some (nd.path ++ [0]),
          ((nd.cost + d (nd.path.getLastD 0) 0 : ℚ) : WithTop ℚ)⟩
      else .next ⟨s.ctr + 1, rest, s.best, s.bc⟩
    else
      match expandGo d N oracle nd s.bc (List.range N) (s.ctr + 1) [] with
      | none => .timeout
      | some (children, ctr') => .next ⟨ctr', rest ++ children, s.best, s.bc⟩

/-- Initial state: the root `(0, 0, [0], {0})` pushed before the loop
(src/main.py lines 182-184), no incumbent, `best_cost = inf`. -/
def bbInit : BBState := ⟨0, [⟨0, 0, [0], {0}⟩], none, ⊤⟩

inductive BBResult where
  | fuelOut
  | timeout
  | ans (best : Option (List ℕ)) (bc : WithTop ℚ)
deriving DecidableEq

/-- Fuel-indexed iteration of `bbStep` (the Python loop is unbounded; the
fuel is a model artifact and `fuelOut` marks its exhaustion). -/
def bbLoop (d : ℕ → ℕ → ℚ) (N : ℕ) (oracle : ℕ → Bool) : ℕ → BBState → BBResult
  | 0, _ => .fuelOut
  | fuel + 1, s =>
    match bbStep d N oracle s with
    | .finished bt bc => .ans bt bc
    | .timeout => .timeout
    | .next s' => bbLoop d N oracle fuel s'

/-- Cost slot of the returned pair: the string `"NA"` or a numeric cost
(`⊤` = `float('inf')`, reached only when no tour at all was completed). -/
inductive BBCost where
  | NA
  | val (c : WithTop ℚ)
deriving DecidableEq

/-- `branch_and_bound(dist_matrix, time_limit)` (src/main.py lines 156-213):
returns `(None, "NA")` when a clock check observes the exceeded budget
(`TimeoutError` caught at line 210), else `(best_tour, best_cost)` on
frontier exhaustion.  The outer `Option` is fuel exhaustion (model
artifact). -/
def branchAndBound (d : ℕ → ℕ → ℚ) (N : ℕ) (oracle : ℕ → Bool) (fuel : ℕ) :
    Option (Option (List ℕ) × BBCost) :=
  match bbLoop d N oracle fuel bbInit with
  | .fuelOut => none
  | .timeout => some (none, .NA)
  | .ans bt bc => some (bt, .val bc)

def stepNext (d : ℕ → ℕ → ℚ) (N : ℕ) (oracle : ℕ → Bool) (s : BBState) :
    Option BBState :=
  match bbStep d N oracle s with
  | .next s' => some s'
  | _ => none

def iterStates (d : ℕ → ℕ → ℚ) (N : ℕ) (oracle : ℕ → Bool) : ℕ → Option BBState
  | 0 => some bbInit
  | k + 1 => (iterStates d N oracle k).bind (stepNext d N oracle)

/-- States the branch-and-bound loop passes through. -/
def ReachState (d : ℕ → ℕ → ℚ) (N : ℕ) (oracle : ℕ → Bool) (s : BBState) : Prop :=
  ∃ k, iterStates d N oracle k = some s

theorem foldlMin_mem :
    ∀ (t : List BBNode) (h : BBNode),
      t.foldl (fun mi x => if nodeLtB x mi then x else mi) h ∈ h :: t
  | [], h => List.mem_cons_self h []
  | x :: t, h => by
    rw [List.foldl_cons]
    have ih := foldlMin_mem t (if nodeLtB x h then x else h)
    rcases List.mem_cons.mp ih with heq | hmem
    · rw [heq]
      by_cases hc : nodeLtB x h
      · rw [if_pos hc]; simp
      · rw [if_neg hc]; simp
    · simp [hmem]

theorem popMin_none_iff {l : List BBNode} : popMin l = none ↔ l = [] := by
  cases l <;> simp [popMin]

theorem popMin_some {l : List BBNode} {m : BBNode} {rest : List BBNode}
    (h : popMin l = some (m, rest)) : m ∈ l ∧ rest = l.erase m := by
  cases l with
  | nil => simp [popMin] at h
  | cons a t =>
    rw [popMin] at h
    obtain ⟨h1, h2⟩ := Prod.mk.injEq _ _ _ _ ▸ Option.some.injEq _ _ ▸ h
    exact ⟨h1 ▸ foldlMin_mem t a, h2.symm ▸ (h1 ▸ rfl)⟩

/-- Children generated by the expansion loop over a candidate list. -/
def kidsOver (d : ℕ → ℕ → ℚ) (N : ℕ) (nd : BBNode) (bc : WithTop ℚ)
    (vs : List ℕ) : List BBNode :=
  vs.filterMap (fun v =>
    if v ∈ nd.visited then none
    else if ((childNode d N nd v).bound : WithTop ℚ) < bc then some (childNode d N nd v)
    else none)

theorem kidsOver_cons_visited {d : ℕ → ℕ → ℚ} {N : ℕ} {nd : BBNode}
    {bc : WithTop ℚ} {v : ℕ} {vs : List ℕ} (hv : v ∈ nd.visited) :
    kidsOver d N nd bc (v :: vs) = kidsOver d N nd bc vs := by
  rw [kidsOver, List.filterMap_cons, if_pos hv]
  rfl

theorem kidsOver_cons_push {d : ℕ → ℕ → ℚ} {N : ℕ} {nd : BBNode}
    {bc : WithTop ℚ} {v : ℕ} {vs : List ℕ} (hv : v ∉ nd.visited)
    (hb : ((childNode d N nd v).bound : WithTop ℚ) < bc) :
    kidsOver d N nd bc (v :: vs) = childNode d N nd v :: kidsOver d N nd bc vs := by
  rw [kidsOver, List.filterMap_cons, if_neg hv, if_pos hb]
  rfl

theorem kidsOver_cons_skip {d : ℕ → ℕ → ℚ} {N : ℕ} {nd : BBNode}
    {bc : WithTop ℚ} {v : ℕ} {vs : List ℕ} (hv : v ∉ nd.visited)
    (hb : ¬((childNode d N nd v).bound : WithTop ℚ) < bc) :
    kidsOver d N nd bc (v :: vs) = kidsOver d N nd bc vs := by
  rw [kidsOver, List.filterMap_cons, if_neg hv, if_neg hb]
  rfl

theorem expandGo_some (d : ℕ → ℕ → ℚ) (N : ℕ) (oracle : ℕ → Bool) (nd : BBNode)
    (bc : WithTop ℚ) :
    ∀ (vs : List ℕ) (ctr : ℕ) (acc : List BBNode) {out : List BBNode × ℕ},
      expandGo d N oracle nd bc vs ctr acc = some out →
      out.1 = acc ++ kidsOver d N nd bc vs
  | [], ctr, acc, out, h => by
    rw [expandGo] at h
    obtain rfl := (Option.some.injEq _ _ ▸ h).symm
    simp [kidsOver]
  | v :: vs, ctr, acc, out, h => by
    rw [expandGo] at h
    by_cases hv : v ∈ nd.visited
    · rw [if_pos hv] at h
      have ih := expandGo_some d N oracle nd bc vs ctr acc h
      rw [ih, kidsOver_cons_visited hv]
    · rw [if_neg hv] at h
      by_cases ho : oracle ctr
      · rw [if_pos ho] at h; exact Option.noConfusion h
      · rw [if_neg ho] at h
        by_cases hb : ((childNode d N nd v).bound : WithTop ℚ) < bc
        · rw [if_pos hb] at h
          have ih := expandGo_some d N oracle nd bc vs (ctr + 1) (acc ++ [childNode d N nd v]) h
          rw [ih, kidsOver_cons_push hv hb]
          simp
        · rw [if_neg hb] at h
          have ih := expandGo_some d N oracle nd bc vs (ctr + 1) acc h
          rw [ih, kidsOver_cons_skip hv hb]

theorem mem_kidsOver {d : ℕ → ℕ → ℚ} {N : ℕ} {nd : BBNode} {bc : WithTop ℚ}
    {vs : List ℕ} {c : BBNode} :
    c ∈ kidsOver d N nd bc vs ↔
      ∃ v ∈ vs, v ∉ nd.visited ∧ ((childNode d N nd v).bound : WithTop ℚ) < bc ∧
        c = childNode d N nd v := by
  rw [kidsOver, List.mem_filterMap]
  constructor
  · rintro ⟨v, hv, heq⟩
    by_cases h1 : v ∈ nd.visited
    · rw [if_pos h1] at heq; exact Option.noConfusion heq
    · rw [if_neg h1] at heq
      by_cases h2 : ((childNode d N nd v).bound : WithTop ℚ) < bc
      · rw [if_pos h2] at heq
        exact ⟨v, hv, h1, h2, (Option.some.injEq _ _ ▸ heq).symm⟩
      · rw [if_neg h2] at heq; exact Option.noConfusion heq
  · rintro ⟨v, hv, h1, h2, rfl⟩
    exact ⟨v, hv, by rw [if_neg h1, if_pos h2]⟩

/-- Well-formedness of a queue node, the invariant of the specification:
the partial path starts at vertex 0, has no duplicates, `visited` is
exactly the set of its vertices, the stored cost is the path's cost, and
the stored lower bound is at least the cost so far. -/
def WFNode (d : ℕ → ℕ → ℚ) (N : ℕ) (nd : BBNode) : Prop :=
  nd.path ≠ [] ∧ nd.path.head? = some 0 ∧ nd.path.Nodup ∧
  (∀ x ∈ nd.path, x = 0 ∨ x < N) ∧
  nd.visited = nd.path.toFinset ∧ nd.cost = pathCost d nd.path ∧
  nd.cost ≤ nd.bound

/-- `p` is a proper prefix of `q`. -/
def ProperPfx (p q : List ℕ) : Prop :=
  p.length < q.length ∧ q.take p.length = p

/-- Structural invariant of the priority queue: paths are pairwise
distinct, and no queue path is a proper prefix of another. -/
def FrontierInv (fr : List BBNode) : Prop :=
  fr.Pairwise (fun a b => a.path ≠ b.path) ∧
  ∀ a ∈ fr, ∀ b ∈ fr, ¬ ProperPfx a.path b.path

/-- Invariant of the incumbent: either nothing has been recorded yet
(`best_tour is None`, `best_cost = inf`), or the incumbent is a closed tour
through all the vertices starting and ending at 0, priced exactly. -/
def Incumbent (d : ℕ → ℕ → ℚ) (N : ℕ) (bt : Option (List ℕ)) (bc : WithTop ℚ) : Prop :=
  (bt = none ∧ bc = ⊤) ∨
  ∃ p : List ℕ, p.head? = some 0 ∧ p.Perm (List.range N) ∧ bt = some (p ++ [0]) ∧
    bc = (pathCost d (p ++ [0]) : WithTop ℚ)

def Inv (d : ℕ → ℕ → ℚ) (N : ℕ) (s : BBState) : Prop :=
  (∀ nd ∈ s.frontier, WFNode d N nd) ∧ FrontierInv s.frontier ∧
  Incumbent d N s.best s.bc

theorem rootNode_wf (d : ℕ → ℕ → ℚ) (N : ℕ) :
    WFNode d N ⟨0, 0, [0], {0}⟩ := by
  refine ⟨by simp, rfl, by simp, by simp, by simp, rfl, le_refl 0⟩

theorem bbInit_inv (d : ℕ → ℕ → ℚ) (N : ℕ) : Inv d N bbInit := by
  refine ⟨?_, ⟨by simp [bbInit], ?_⟩, Or.inl ⟨rfl, rfl⟩⟩
  · intro nd hnd
    rw [bbInit] at hnd
    simp only [List.mem_singleton] at hnd
    rw [hnd]
    exact rootNode_wf d N
  · intro a ha b hb
    rw [bbInit] at ha hb
    simp only [List.mem_singleton] at ha hb
    rw [ha, hb]
    rintro ⟨hlen, _⟩
    exact lt_irrefl _ hlen

theorem childNode_wf {d : ℕ → ℕ → ℚ} {N : ℕ} {nd : BBNode} {v : ℕ}
    (hd : NonnegD d N) (hwf : WFNode d N nd) (hv : v < N)
    (hnv : v ∉ nd.visited) : WFNode d N (childNode d N nd v) := by
  obtain ⟨hne, hhead, hnd', hbnd, hvis, hcost, hcb⟩ := hwf
  have hvp : v ∉ nd.path := by
    intro hc
    exact hnv (hvis ▸ List.mem_toFinset.mpr hc)
  refine ⟨by simp [childNode], ?_, ?_, ?_, ?_, ?_, ?_⟩
  · show (nd.path ++ [v]).head? = some 0
    cases hp : nd.path with
    | nil => exact absurd hp hne
    | cons a t =>
      rw [hp] at hhead
      simp only [List.cons_append, List.head?_cons] at hhead ⊢
      exact hhead
  · show (nd.path ++ [v]).Nodup
    simp [List.nodup_append, hnd', hvp]
  · intro x hx
    show x = 0 ∨ x < N
    rcases List.mem_append.mp hx with h | h
    · exact hbnd x h
    · rw [List.mem_singleton.mp h]
      exact Or.inr hv
  · show insert v nd.visited = (nd.path ++ [v]).toFinset
    rw [hvis, List.toFinset_append]
    simp [Finset.insert_eq, Finset.union_comm]
  · show nd.cost + d (nd.path.getLastD 0) v = pathCost d (nd.path ++ [v])
    rw [hcost, pathCost_concat d nd.path v hne]
  · show (childNode d N nd v).cost ≤ (childNode d N nd v).bound
    have hmst : 0 ≤ mstCost d (insert v ((Finset.range N) \ (insert v nd.visited))) := by
      apply mstCost_nonneg
      intro e he
      have hme := mem_pairsOf.mp he
      have hsub : insert v ((Finset.range N) \ (insert v nd.visited)) ⊆ Finset.range N := by
        intro x hx
        rcases Finset.mem_insert.mp hx with rfl | hx
        · exact Finset.mem_range.mpr hv
        · exact (Finset.mem_sdiff.mp hx).1
      have h1 := Finset.mem_range.mp (hsub hme.1)
      have h2 := Finset.mem_range.mp (hsub hme.2.1)
      exact hd e.1 h1 e.2 h2
    show nd.cost + d (nd.path.getLastD 0) v ≤
      nd.cost + d (nd.path.getLastD 0) v + mstCost d _
    linarith

theorem kidsOver_path {d : ℕ → ℕ → ℚ} {N : ℕ} {nd : BBNode} {bc : WithTop ℚ}
    {vs : List ℕ} {c : BBNode} (h : c ∈ kidsOver d N nd bc vs) :
    ∃ v ∈ vs, v ∉ nd.visited ∧ c.path = nd.path ++ [v] := by
  obtain ⟨v, hv, h1, _, rfl⟩ := mem_kidsOver.mp h
  exact ⟨v, hv, h1, rfl⟩

theorem kidsOver_pairwise (d : ℕ → ℕ → ℚ) (N : ℕ) (nd : BBNode) (bc : WithTop ℚ)
    {vs : List ℕ} (hvs : vs.Nodup) :
    (kidsOver d N nd bc vs).Pairwise (fun a b => a.path ≠ b.path) := by
  rw [kidsOver, List.pairwise_filterMap]
  apply List.Pairwise.imp ?_ hvs
  intro v w hvw b hb b' hb'
  have hbv : b = childNode d N nd v := by
    by_cases h1 : v ∈ nd.visited
    · rw [if_pos h1] at hb; simp at hb
    · rw [if_neg h1] at hb
      by_cases h2 : ((childNode d N nd v).bound : WithTop ℚ) < bc
      · rw [if_pos h2] at hb
        simp only [Option.mem_def, Option.some.injEq] at hb
        exact hb.symm
      · rw [if_neg h2] at hb; simp at hb
  have hbw : b' = childNode d N nd w := by
    by_cases h1 : w ∈ nd.visited
    · rw [if_pos h1] at hb'; simp at hb'
    · rw [if_neg h1] at hb'
      by_cases h2 : ((childNode d N nd w).bound : WithTop ℚ) < bc
      · rw [if_pos h2] at hb'
        simp only [Option.mem_def, Option.some.injEq] at hb'
        exact hb'.symm
      · rw [if_neg h2] at hb'; simp at hb'
  rw [hbv, hbw]
  show nd.path ++ [v] ≠ nd.path ++ [w]
  intro hc
  exact hvw (by simpa using List.append_cancel_left hc)

theorem frontierInv_nodup {fr : List BBNode} (hfi : FrontierInv fr) : fr.Nodup := by
  apply List.Pairwise.imp ?_ hfi.1
  intro a b hab heq
  exact hab (by rw [heq])

theorem frontierInv_path_ne {fr : List BBNode} (hfi : FrontierInv fr) {a b : BBNode}
    (ha : a ∈ fr) (hb : b ∈ fr) (hne : a ≠ b) : a.path ≠ b.path := by
  have hsym : Symmetric (fun a b : BBNode => a.path ≠ b.path) := by
    intro a b h heq
    exact h heq.symm
  exact List.Pairwise.forall hsym hfi.1 ha hb hne

theorem mem_of_mem_erase_frontier {fr : List BBNode} (hfi : FrontierInv fr)
    {m x : BBNode} (hx : x ∈ fr.erase m) : x ∈ fr ∧ x ≠ m := by
  have := (List.Nodup.mem_erase_iff (frontierInv_nodup hfi)).mp hx
  exact ⟨this.2, this.1⟩

theorem frontierInv_erase {fr : List BBNode} (m : BBNode) (hfi : FrontierInv fr) :
    FrontierInv (fr.erase m) :=
  ⟨hfi.1.sublist (fr.erase_sublist m),
   fun a ha b hb => hfi.2 a (List.mem_of_mem_erase ha) b (List.mem_of_mem_erase hb)⟩

theorem properPfx_of_append_right {p q : List ℕ} {v : ℕ}
    (h : ProperPfx q (p ++ [v])) : q = p ∨ ProperPfx q p := by
  obtain ⟨hlen, htake⟩ := h
  rw [List.length_append, List.length_singleton] at hlen
  have hle : q.length ≤ p.length := by omega
  rw [List.take_append_of_le_length hle] at htake
  rcases Nat.lt_or_ge q.length p.length with hlt | hge
  · exact Or.inr ⟨hlt, htake⟩
  · have : q.length = p.length := by omega
    rw [this, List.take_length] at htake
    exact Or.inl htake.symm

theorem properPfx_of_append_left {p q : List ℕ} {v : ℕ}
    (h : ProperPfx (p ++ [v]) q) : ProperPfx p q := by
  obtain ⟨hlen, htake⟩ := h
  rw [List.length_append, List.length_singleton] at hlen htake
  constructor
  · omega
  · have h1 : q.take p.length = (q.take (p.length + 1)).take p.length := by
      rw [List.take_take]
      congr 1
      omega
    rw [h1, htake, List.take_append_of_le_length (le_refl _), List.take_length]

theorem kidsOver_path_length {d : ℕ → ℕ → ℚ} {N : ℕ} {nd : BBNode}
    {bc : WithTop ℚ} {vs : List ℕ} {c : BBNode} (h : c ∈ kidsOver d N nd bc vs) :
    c.path.length = nd.path.length + 1 := by
  obtain ⟨v, _, _, hp⟩ := kidsOver_path h
  rw [hp]
  simp

/-- Preservation of the queue structure across one pop-and-expand step:
the popped node is removed and its children (which extend its path by one
vertex) are appended. -/
theorem frontierInv_expand {d : ℕ → ℕ → ℚ} {N : ℕ} {bc : WithTop ℚ}
    {fr : List BBNode} {m : BBNode} (hfi : FrontierInv fr) (hm : m ∈ fr) :
    FrontierInv (fr.erase m ++ kidsOver d N m bc (List.range N)) := by
  have herase := frontierInv_erase m hfi
  have hkpair := kidsOver_pairwise d N m bc (List.nodup_range N)
  constructor
  · rw [List.pairwise_append]
    refine ⟨herase.1, hkpair, ?_⟩
    intro x hx c hc
    obtain ⟨hxfr, hxm⟩ := mem_of_mem_erase_frontier hfi hx
    obtain ⟨v, _, _, hcpath⟩ := kidsOver_path hc
    intro hceq
    apply hfi.2 m hm x hxfr
    refine ⟨?_, ?_⟩
    · rw [hceq, hcpath]; simp
    · rw [hceq, hcpath, List.take_append_of_le_length (le_refl _), List.take_length]
  · intro a ha b hb
    rcases List.mem_append.mp ha with ha' | ha' <;>
      rcases List.mem_append.mp hb with hb' | hb'
    · exact herase.2 a ha' b hb'
    · obtain ⟨hafr, ham⟩ := mem_of_mem_erase_frontier hfi ha'
      obtain ⟨v, _, _, hbp⟩ := kidsOver_path hb'
      rw [hbp]
      intro hpfx
      rcases properPfx_of_append_right hpfx with heq | hpfx'
      · exact frontierInv_path_ne hfi hafr hm ham heq
      · exact hfi.2 a hafr m hm hpfx'
    · obtain ⟨hbfr, _⟩ := mem_of_mem_erase_frontier hfi hb'
      obtain ⟨v, _, _, hap⟩ := kidsOver_path ha'
      rw [hap]
      intro hpfx
      exact hfi.2 m hm b hbfr (properPfx_of_append_left hpfx)
    · have h1 := kidsOver_path_length ha'
      have h2 := kidsOver_path_length hb'
      rintro ⟨hlen, _⟩
      omega

/-- A node covering all `N` vertices closes into a full tour from 0. -/
theorem complete_node_tour {d : ℕ → ℕ → ℚ} {N : ℕ} {nd : BBNode}
    (hwf : WFNode d N nd) (hcard : nd.visited.card = N) :
    nd.path.head? = some 0 ∧ nd.path.Perm (List.range N) ∧
      nd.cost + d (nd.path.getLastD 0) 0 = pathCost d (nd.path ++ [0]) := by
  obtain ⟨hne, hhead, hnd', hbnd, hvis, hcost, _⟩ := hwf
  have hN1 : 1 ≤ N := by
    rcases Nat.eq_zero_or_pos N with rfl | h
    · exfalso
      rw [hvis] at hcard
      have h0 : (0 : ℕ) ∈ nd.path := by
        cases hp : nd.path with
        | nil => exact absurd hp hne
        | cons a t =>
          rw [hp] at hhead
          simp only [List.head?_cons, Option.some.injEq] at hhead
          rw [hhead]
          exact List.mem_cons_self _ _
      have : (0 : ℕ) ∈ nd.path.toFinset := List.mem_toFinset.mpr h0
      have := Finset.card_pos.mpr ⟨0, this⟩
      omega
    · exact h
  have hsub : nd.path.toFinset ⊆ Finset.range N := by
    intro x hx
    rcases hbnd x (List.mem_toFinset.mp hx) with rfl | h
    · exact Finset.mem_range.mpr hN1
    · exact Finset.mem_range.mpr h
  have hfin : nd.path.toFinset = Finset.range N := by
    apply Finset.eq_of_subset_of_card_le hsub
    rw [Finset.card_range, ← hvis, hcard]
  refine ⟨hhead, perm_range_of_nodup_toFinset hnd' hfin, ?_⟩
  rw [pathCost_concat d nd.path 0 hne, hcost]

theorem mstCost_le_pathCost {d : ℕ → ℕ → ℚ} {n : ℕ} (hsym : SymD d n)
    {l : List ℕ} (hnd : l.Nodup) (hb : ∀ x ∈ l, x < n) :
    mstCost d l.toFinset ≤ pathCost d l := by
  have h := @mstCost_le d _ _ (pathEdges_spanning hnd rfl)
  rwa [wSum_pathEdges hsym hnd hb] at h

theorem pathCost_take_drop (d : ℕ → ℕ → ℚ) (σ : List ℕ) (k : ℕ) (hk : k < σ.length) :
    pathCost d σ = pathCost d (σ.take (k + 1)) + pathCost d (σ.drop k) := by
  have h2 : σ.drop k = σ.get ⟨k, hk⟩ :: σ.drop (k + 1) := List.drop_eq_get_cons hk
  have h3 : σ.take (k + 1) = σ.take k ++ [σ.get ⟨k, hk⟩] := by
    have := List.take_concat_get σ k hk
    rw [List.concat_eq_append] at this
    exact this.symm
  calc pathCost d σ = pathCost d (σ.take k ++ σ.drop k) := by
        rw [List.take_append_drop]
  _ = pathCost d (σ.take k ++ (σ.get ⟨k, hk⟩ :: σ.drop (k + 1))) := by rw [← h2]
  _ = pathCost d (σ.take k ++ [σ.get ⟨k, hk⟩]) +
        pathCost d (σ.get ⟨k, hk⟩ :: σ.drop (k + 1)) := pathCost_append_cons d _ _ _
  _ = pathCost d (σ.take (k + 1)) + pathCost d (σ.drop k) := by rw [← h3, ← h2]

/-- An optimal tour: a Hamiltonian cycle starting at 0 attaining the
minimum cost.  One exists whenever `n ≥ 1`. -/
def OptCycle (d : ℕ → ℕ → ℚ) (N : ℕ) (σ : List ℕ) : Prop :=
  σ.head? = some 0 ∧ σ.Perm (List.range N) ∧ closedCost d σ = minHamCost d N

/-- Viable optimal prefix: the node's path is a prefix of the optimal tour
`σ`, priced exactly, with a lower bound that does not exceed the optimum. -/
def OptPfx (d : ℕ → ℕ → ℚ) (N : ℕ) (σ : List ℕ) (nd : BBNode) : Prop :=
  ∃ k, 1 ≤ k ∧ k ≤ N ∧ nd.path = σ.take k ∧ nd.cost = pathCost d (σ.take k) ∧
    nd.bound ≤ minHamCost d N

/-- Completeness invariant of the search: either the incumbent is already
optimal, or the frontier holds a viable prefix of an optimal tour. -/
def Compl (d : ℕ → ℕ → ℚ) (N : ℕ) (s : BBState) : Prop :=
  s.bc ≤ (minHamCost d N : WithTop ℚ) ∨
  ∃ σ, OptCycle d N σ ∧ ∃ w ∈ s.frontier, OptPfx d N σ w

theorem optCycle_facts {d : ℕ → ℕ → ℚ} {N : ℕ} {σ : List ℕ}
    (h : OptCycle d N σ) :
    σ.Nodup ∧ σ.length = N ∧ (∀ x ∈ σ, x < N) ∧ σ.toFinset = Finset.range N :=
  ⟨h.2.1.nodup_iff.mpr (List.nodup_range N),
   by rw [h.2.1.length_eq, List.length_range],
   fun x hx => by simpa using h.2.1.mem_iff.mp hx,
   toFinset_of_perm_range h.2.1⟩

theorem optCycle_take_one {d : ℕ → ℕ → ℚ} {N : ℕ} {σ : List ℕ}
    (h : OptCycle d N σ) : σ.take 1 = [0] := by
  cases hσ : σ with
  | nil => rw [hσ] at h; exact Option.noConfusion h.1
  | cons a t =>
    have := h.1
    rw [hσ] at this
    simp only [List.head?_cons, Option.some.injEq] at this
    rw [this]
    rfl

theorem optCycle_closed_eq {d : ℕ → ℕ → ℚ} {N : ℕ} {σ : List ℕ}
    (h : OptCycle d N σ) :
    pathCost d σ + d (σ.getLastD 0) 0 = minHamCost d N := by
  have hne : σ ≠ [] := by
    intro hnil
    rw [hnil] at h
    exact Option.noConfusion h.1
  have : closedCost d σ = pathCost d σ + d (σ.getLastD 0) 0 := by
    rw [closedCost, optCycle_take_one h, pathCost_concat d σ 0 hne]
  rw [← this, h.2.2]

theorem exists_optCycle_pred {d : ℕ → ℕ → ℚ} {N : ℕ} (hN : 1 ≤ N) :
    ∃ σ, OptCycle d N σ := by
  obtain ⟨σ, h1, h2, h3⟩ := @exists_optCycle d _ hN
  exact ⟨σ, h1, h2, h3⟩

theorem bbInit_compl {d : ℕ → ℕ → ℚ} {N : ℕ} (hd : NonnegD d N) (hN : 1 ≤ N) :
    Compl d N bbInit := by
  obtain ⟨σ, hσ⟩ := @exists_optCycle_pred d _ hN
  right
  refine ⟨σ, hσ, ⟨0, 0, [0], {0}⟩, by rw [bbInit]; exact List.mem_singleton.mpr rfl,
    1, le_refl 1, hN, ?_, ?_, ?_⟩
  · rw [optCycle_take_one hσ]
  · rw [optCycle_take_one hσ]
    rfl
  · exact minHamCost_nonneg hd hN

/-- Admissibility of the expansion: appending the next vertex of the
optimal tour to a viable prefix yields a child whose `compute_bound` lower
bound still does not exceed the optimum. -/
theorem optPfx_child {d : ℕ → ℕ → ℚ} {N : ℕ} {σ : List ℕ} {nd : BBNode}
    (hsym : SymD d N) (hd : NonnegD d N) (hσ : OptCycle d N σ)
    (hwf : WFNode d N nd) {k : ℕ} (hk1 : 1 ≤ k) (hkN : k < N)
    (hpath : nd.path = σ.take k) (hcost : nd.cost = pathCost d (σ.take k)) :
    ∃ v, v < N ∧ v ∉ nd.visited ∧
      (childNode d N nd v).path = σ.take (k + 1) ∧
      (childNode d N nd v).cost = pathCost d (σ.take (k + 1)) ∧
      (childNode d N nd v).bound ≤ minHamCost d N := by
  obtain ⟨hnodup, hlen, hbnd, hfin⟩ := optCycle_facts hσ
  have hklt : k < σ.length := by rw [hlen]; exact hkN
  set v := σ.get ⟨k, hklt⟩ with hv
  have hvmem : v ∈ σ := List.get_mem σ k hklt
  have hvN : v < N := hbnd v hvmem
  have htk1 : σ.take (k + 1) = σ.take k ++ [v] := by
    have := List.take_concat_get σ k hklt
    rw [List.concat_eq_append] at this
    exact this.symm
  have htkne : σ.take k ≠ [] := by
    intro hc
    have hlen2 : (σ.take k).length = min k σ.length := List.length_take k σ
    rw [hc] at hlen2
    simp only [List.length_nil] at hlen2
    omega
  have hvnotin : v ∉ σ.take k := by
    intro hc
    have hnd2 : (σ.take (k + 1)).Nodup := hnodup.sublist (List.take_sublist _ _)
    rw [htk1] at hnd2
    rw [List.nodup_append] at hnd2
    exact hnd2.2.2 hc (List.mem_singleton.mpr rfl)
  have hvnotvis : v ∉ nd.visited := by
    rw [hwf.2.2.2.2.1, hpath]
    intro hc
    exact hvnotin (List.mem_toFinset.mp hc)
  refine ⟨v, hvN, hvnotvis, ?_, ?_, ?_⟩
  · show nd.path ++ [v] = σ.take (k + 1)
    rw [hpath, htk1]
  · show nd.cost + d (nd.path.getLastD 0) v = pathCost d (σ.take (k + 1))
    rw [htk1, hcost, hpath, pathCost_concat d (σ.take k) v htkne]
  · show nd.cost + d (nd.path.getLastD 0) v +
      mstCost d (insert v ((Finset.range N) \ (insert v nd.visited))) ≤ minHamCost d N
    have hcost1 : nd.cost + d (nd.path.getLastD 0) v = pathCost d (σ.take (k + 1)) := by
      rw [htk1, hcost, hpath, pathCost_concat d (σ.take k) v htkne]
    have hS : insert v ((Finset.range N) \ (insert v nd.visited)) = (σ.drop k).toFinset := by
      have h1 : insert v nd.visited = (σ.take (k + 1)).toFinset := by
        rw [hwf.2.2.2.2.1, hpath, htk1]
        simp [List.toFinset_append, Finset.insert_eq, Finset.union_comm]
      have h2 : (Finset.range N) \ (insert v nd.visited) = (σ.drop (k + 1)).toFinset := by
        rw [h1, ← hfin]
        have hsplit : σ.toFinset = (σ.take (k + 1)).toFinset ∪ (σ.drop (k + 1)).toFinset := by
          conv_lhs => rw [← List.take_append_drop (k + 1) σ]
          rw [List.toFinset_append]
        rw [hsplit]
        apply Finset.union_sdiff_cancel_left
        rw [Finset.disjoint_left]
        intro a ha1 ha2
        have hnd2 := hnodup
        rw [← List.take_append_drop (k + 1) σ, List.nodup_append] at hnd2
        exact hnd2.2.2 (List.mem_toFinset.mp ha1) (List.mem_toFinset.mp ha2)
      rw [h2]
      have h3 : σ.drop k = v :: σ.drop (k + 1) := List.drop_eq_get_cons hklt
      rw [h3, List.toFinset_cons]
    have hdropnd : (σ.drop k).Nodup := hnodup.sublist (List.drop_sublist _ _)
    have hdropb : ∀ x ∈ σ.drop k, x < N := fun x hx =>
      hbnd x (List.mem_of_mem_drop hx)
    have hmst : mstCost d (σ.drop k).toFinset ≤ pathCost d (σ.drop k) :=
      mstCost_le_pathCost hsym hdropnd hdropb
    have hsplitc : pathCost d σ = pathCost d (σ.take (k + 1)) + pathCost d (σ.drop k) :=
      pathCost_take_drop d σ k hklt
    have hlast : 0 ≤ d (σ.getLastD 0) 0 := by
      have hne : σ ≠ [] := by
        intro hnil
        rw [hnil] at hσ
        exact Option.noConfusion hσ.1
      have hmem : σ.getLastD 0 ∈ σ := by
        have := List.getLast_mem hne
        simp only [List.getLastD_eq_getLast?, List.getLast?_eq_getLast _ hne]
        exact this
      exact hd _ (hbnd _ hmem) 0 (by omega)
    have hopt := optCycle_closed_eq hσ
    rw [hS, hcost1]
    linarith

theorem bbStep_next_inv {d : ℕ → ℕ → ℚ} {N : ℕ} {oracle : ℕ → Bool}
    {s s' : BBState} (hd : NonnegD d N) (hinv : Inv d N s)
    (hstep : bbStep d N oracle s = .next s') : Inv d N s' := by
  obtain ⟨hwf, hfi, hinc⟩ := hinv
  rw [bbStep] at hstep
  split at hstep
  · exact StepRes.noConfusion hstep
  · rename_i nd rest hpop
    obtain ⟨hmem, hrest⟩ := popMin_some hpop
    by_cases ho : oracle s.ctr
    · rw [if_pos ho] at hstep
      exact StepRes.noConfusion hstep
    rw [if_neg ho] at hstep
    have hwfnd := hwf nd hmem
    have hresty : ∀ x ∈ rest, x ∈ s.frontier := by
      intro x hx
      rw [hrest] at hx
      exact List.mem_of_mem_erase hx
    have hrestinv : FrontierInv rest := hrest ▸ frontierInv_erase nd hfi
    by_cases hprune : s.bc ≤ (nd.bound : WithTop ℚ)
    · rw [if_pos hprune] at hstep
      injection hstep with h
      subst h
      exact ⟨fun x hx => hwf x (hresty x hx), hrestinv, hinc⟩
    rw [if_neg hprune] at hstep
    by_cases hcard : nd.visited.card = N
    · rw [if_pos hcard] at hstep
      obtain ⟨hhead, hperm, hcosteq⟩ := complete_node_tour hwfnd hcard
      by_cases himp : ((nd.cost + d (nd.path.getLastD 0) 0 : ℚ) : WithTop ℚ) < s.bc
      · rw [if_pos himp] at hstep
        injection hstep with h
        subst h
        refine ⟨fun x hx => hwf x (hresty x hx), hrestinv, Or.inr ?_⟩
        exact ⟨nd.path, hhead, hperm, rfl, by rw [hcosteq]⟩
      · rw [if_neg himp] at hstep
        injection hstep with h
        subst h
        exact ⟨fun x hx => hwf x (hresty x hx), hrestinv, hinc⟩
    · rw [if_neg hcard] at hstep
      split at hstep
      · exact StepRes.noConfusion hstep
      · rename_i children ctr' hexp
        injection hstep with h
        subst h
        have hch : children = kidsOver d N nd s.bc (List.range N) := by
          have := expandGo_some d N oracle nd s.bc (List.range N) (s.ctr + 1) [] hexp
          simpa using this
        refine ⟨?_, ?_, hinc⟩
        · intro x hx
          rcases List.mem_append.mp hx with hx' | hx'
          · exact hwf x (hresty x hx')
          · rw [hch] at hx'
            obtain ⟨v, hv, hnv, _, rfl⟩ := mem_kidsOver.mp hx'
            exact childNode_wf hd hwfnd (List.mem_range.mp hv) hnv
        · rw [hrest, hch]
          exact frontierInv_expand hfi hmem

theorem bbStep_next_compl {d : ℕ → ℕ → ℚ} {N : ℕ} {oracle : ℕ → Bool}
    {s s' : BBState} (hsym : SymD d N) (hd : NonnegD d N) (hN : 1 ≤ N)
    (hinv : Inv d N s) (hcompl : Compl d N s)
    (hstep : bbStep d N oracle s = .next s') : Compl d N s' := by
  obtain ⟨hwf, hfi, hinc⟩ := hinv
  rw [bbStep] at hstep
  split at hstep
  · exact StepRes.noConfusion hstep
  · rename_i nd rest hpop
    obtain ⟨hmem, hrest⟩ := popMin_some hpop
    by_cases ho : oracle s.ctr
    · rw [if_pos ho] at hstep
      exact StepRes.noConfusion hstep
    rw [if_neg ho] at hstep
    have hwfnd := hwf nd hmem
    have hwmem : ∀ w ∈ s.frontier, w ≠ nd → w ∈ rest := by
      intro w hwfr hwne
      rw [hrest]
      exact (List.Nodup.mem_erase_iff (frontierInv_nodup hfi)).mpr ⟨hwne, hwfr⟩
    rcases hcompl with hbcle | ⟨σ, hσ, w, hwfr, hpfx⟩
    · -- the incumbent is already optimal: it never worsens
      by_cases hprune : s.bc ≤ (nd.bound : WithTop ℚ)
      · rw [if_pos hprune] at hstep
        injection hstep with h
        subst h
        exact Or.inl hbcle
      rw [if_neg hprune] at hstep
      by_cases hcard : nd.visited.card = N
      · rw [if_pos hcard] at hstep
        by_cases himp : ((nd.cost + d (nd.path.getLastD 0) 0 : ℚ) : WithTop ℚ) < s.bc
        · rw [if_pos himp] at hstep
          injection hstep with h
          subst h
          left
          show ((nd.cost + d (nd.path.getLastD 0) 0 : ℚ) : WithTop ℚ) ≤ _
          exact le_trans (le_of_lt himp) hbcle
        · rw [if_neg himp] at hstep
          injection hstep with h
          subst h
          exact Or.inl hbcle
      · rw [if_neg hcard] at hstep
        split at hstep
        · exact StepRes.noConfusion hstep
        · rename_i children ctr' hexp
          injection hstep with h
          subst h
          exact Or.inl hbcle
    · -- a viable optimal prefix is in the queue
      obtain ⟨k, hk1, hkN, hwpath, hwcost, hwbound⟩ := hpfx
      by_cases hOPT : s.bc ≤ (minHamCost d N : WithTop ℚ)
      · -- fall back to the incumbent disjunct, which every branch preserves
        by_cases hprune : s.bc ≤ (nd.bound : WithTop ℚ)
        · rw [if_pos hprune] at hstep
          injection hstep with h
          subst h
          exact Or.inl hOPT
        rw [if_neg hprune] at hstep
        by_cases hcard : nd.visited.card = N
        · rw [if_pos hcard] at hstep
          by_cases himp : ((nd.cost + d (nd.path.getLastD 0) 0 : ℚ) : WithTop ℚ) < s.bc
          · rw [if_pos himp] at hstep
            injection hstep with h
            subst h
            exact Or.inl (le_trans (le_of_lt himp) hOPT)
          · rw [if_neg himp] at hstep
            injection hstep with h
            subst h
            exact Or.inl hOPT
        · rw [if_neg hcard] at hstep
          split at hstep
          · exact StepRes.noConfusion hstep
          · rename_i children ctr' hexp
            injection hstep with h
            subst h
            exact Or.inl hOPT
      · have hOPTlt : (minHamCost d N : WithTop ℚ) < s.bc := not_le.mp hOPT
        by_cases hwnd : w = nd
        · -- the viable prefix itself was popped
          subst hwnd
          have hnotpruned : ¬ s.bc ≤ (w.bound : WithTop ℚ) := by
            intro hc
            have : (w.bound : WithTop ℚ) ≤ (minHamCost d N : WithTop ℚ) :=
              WithTop.coe_le_coe.mpr hwbound
            exact absurd (le_trans hc this) hOPT
          rw [if_neg hnotpruned] at hstep
          have hwfw := hwf w hwfr
          have hlenpath : w.path.length = k := by
            rw [hwpath, List.length_take]
            have := (optCycle_facts hσ).2.1
            omega
          by_cases hcard : w.visited.card = N
          · -- the prefix is the whole optimal tour: close it and record it
            rw [if_pos hcard] at hstep
            have hkNeq : k = N := by
              have h1 : w.visited = w.path.toFinset := hwfw.2.2.2.2.1
              have h2 : w.path.toFinset.card = w.path.length :=
                List.toFinset_card_of_nodup hwfw.2.2.1
              rw [h1, h2, hlenpath] at hcard
              exact hcard
            have hσlen : σ.length = N := (optCycle_facts hσ).2.1
            have htkσ : σ.take k = σ := by
              rw [hkNeq, ← hσlen, List.take_length]
            have hpatheq : w.path = σ := by
              rw [hwpath, htkσ]
            have htotal : w.cost + d (w.path.getLastD 0) 0 = minHamCost d N := by
              rw [hwcost, htkσ, hpatheq]
              exact optCycle_closed_eq hσ
            by_cases himp : ((w.cost + d (w.path.getLastD 0) 0 : ℚ) : WithTop ℚ) < s.bc
            · rw [if_pos himp] at hstep
              injection hstep with h
              subst h
              left
              show ((w.cost + d (w.path.getLastD 0) 0 : ℚ) : WithTop ℚ) ≤ _
              rw [htotal]
            · exfalso
              apply himp
              rw [htotal]
              exact hOPTlt
          · -- expand: the child along the optimal tour is pushed
            rw [if_neg hcard] at hstep
            have hkltN : k < N := by
              rcases Nat.lt_or_ge k N with h | h
              · exact h
              · exfalso
                have hkNeq : k = N := le_antisymm hkN h
                have h1 : w.visited = w.path.toFinset := hwfw.2.2.2.2.1
                have h2 : w.path.toFinset.card = w.path.length :=
                  List.toFinset_card_of_nodup hwfw.2.2.1
                apply hcard
                rw [h1, h2, hlenpath, hkNeq]
            obtain ⟨v, hvN, hvnot, hcpath, hccost, hcbound⟩ :=
              optPfx_child hsym hd hσ hwfw hk1 hkltN hwpath hwcost
            split at hstep
            · exact StepRes.noConfusion hstep
            · rename_i children ctr' hexp
              injection hstep with h
              subst h
              have hch : children = kidsOver d N w s.bc (List.range N) := by
                have := expandGo_some d N oracle w s.bc (List.range N) (s.ctr + 1) [] hexp
                simpa using this
              right
              refine ⟨σ, hσ, childNode d N w v, ?_, k + 1, by omega, by omega,
                hcpath, hccost, hcbound⟩
              apply List.mem_append.mpr
              right
              rw [hch]
              apply mem_kidsOver.mpr
              refine ⟨v, List.mem_range.mpr hvN, hvnot, ?_, rfl⟩
              calc ((childNode d N w v).bound : WithTop ℚ)
                  ≤ (minHamCost d N : WithTop ℚ) := WithTop.coe_le_coe.mpr hcbound
              _ < s.bc := hOPTlt
        · -- the popped node is not the viable prefix: it survives the step
          have hwrest : w ∈ rest := hwmem w hwfr hwnd
          by_cases hprune : s.bc ≤ (nd.bound : WithTop ℚ)
          · rw [if_pos hprune] at hstep
            injection hstep with h
            subst h
            exact Or.inr ⟨σ, hσ, w, hwrest, k, hk1, hkN, hwpath, hwcost, hwbound⟩
          rw [if_neg hprune] at hstep
          by_cases hcard : nd.visited.card = N
          · rw [if_pos hcard] at hstep
            by_cases himp : ((nd.cost + d (nd.path.getLastD 0) 0 : ℚ) : WithTop ℚ) < s.bc
            · rw [if_pos himp] at hstep
              injection hstep with h
              subst h
              exact Or.inr ⟨σ, hσ, w, hwrest, k, hk1, hkN, hwpath, hwcost, hwbound⟩
            · rw [if_neg himp] at hstep
              injection hstep with h
              subst h
              exact Or.inr ⟨σ, hσ, w, hwrest, k, hk1, hkN, hwpath, hwcost, hwbound⟩
          · rw [if_neg hcard] at hstep
            split at hstep
            · exact StepRes.noConfusion hstep
            · rename_i children ctr' hexp
              injection hstep with h
              subst h
              exact Or.inr ⟨σ, hσ, w, List.mem_append.mpr (Or.inl hwrest),
                k, hk1, hkN, hwpath, hwcost, hwbound⟩

theorem bbStep_finished {d : ℕ → ℕ → ℚ} {N : ℕ} {oracle : ℕ → Bool}
    {s : BBState} {bt : Option (List ℕ)} {bc : WithTop ℚ}
    (h : bbStep d N oracle s = .finished bt bc) :
    s.frontier = [] ∧ bt = s.best ∧ bc = s.bc := by
  rw [bbStep] at h
  split at h
  · rename_i hpop
    refine ⟨popMin_none_iff.mp hpop, ?_⟩
    injection h with h1 h2
    exact ⟨h1.symm, h2.symm⟩
  · rename_i nd rest hpop
    exfalso
    by_cases ho : oracle s.ctr
    · rw [if_pos ho] at h; exact StepRes.noConfusion h
    rw [if_neg ho] at h
    by_cases hprune : s.bc ≤ (nd.bound : WithTop ℚ)
    · rw [if_pos hprune] at h; exact StepRes.noConfusion h
    rw [if_neg hprune] at h
    by_cases hcard : nd.visited.card = N
    · rw [if_pos hcard] at h
      by_cases himp : ((nd.cost + d (nd.path.getLastD 0) 0 : ℚ) : WithTop ℚ) < s.bc
      · rw [if_pos himp] at h; exact StepRes.noConfusion h
      · rw [if_neg himp] at h; exact StepRes.noConfusion h
    · rw [if_neg hcard] at h
      split at h
      · exact StepRes.noConfusion h
      · exact StepRes.noConfusion h

theorem take_one_of_head_zero {p : List ℕ} (h : p.head? = some 0) : p.take 1 = [0] := by
  cases hp : p with
  | nil => rw [hp] at h; exact Option.noConfusion h
  | cons a t =>
    rw [hp] at h
    simp only [List.head?_cons, Option.some.injEq] at h
    rw [h]
    rfl

theorem closedCost_eq_concat_zero {d : ℕ → ℕ → ℚ} {p : List ℕ}
    (h : p.head? = some 0) : pathCost d (p ++ [0]) = closedCost d p := by
  rw [closedCost, take_one_of_head_zero h]

/-- After a normal termination of the loop from an invariant-satisfying
state, the returned incumbent is a priced closed tour (or nothing). -/
theorem bbLoop_ans_inv {d : ℕ → ℕ → ℚ} {N : ℕ} {oracle : ℕ → Bool}
    (hd : NonnegD d N) :
    ∀ (fuel : ℕ) (s : BBState), Inv d N s →
      ∀ {bt : Option (List ℕ)} {bc : WithTop ℚ},
        bbLoop d N oracle fuel s = .ans bt bc → Incumbent d N bt bc := by
  intro fuel
  induction fuel with
  | zero =>
    intro s _ bt bc h
    rw [bbLoop] at h
    exact BBResult.noConfusion h
  | succ fuel ih =>
    intro s hinv bt bc h
    rw [bbLoop] at h
    cases hstep : bbStep d N oracle s with
    | finished bt' bc' =>
      rw [hstep] at h
      injection h with h1 h2
      obtain ⟨_, hbt, hbc⟩ := bbStep_finished hstep
      rw [← h1, ← h2, hbt, hbc]
      exact hinv.2.2
    | timeout =>
      rw [hstep] at h
      exact BBResult.noConfusion h
    | next s' =>
      rw [hstep] at h
      exact ih s' (bbStep_next_inv hd hinv hstep) h

/-- After a normal termination of the loop from a state satisfying both
invariants, the returned cost is exactly the optimum and the returned tour
is an optimal closed tour. -/
theorem bbLoop_ans_opt {d : ℕ → ℕ → ℚ} {N : ℕ} {oracle : ℕ → Bool}
    (hsym : SymD d N) (hd : NonnegD d N) (hN : 1 ≤ N) :
    ∀ (fuel : ℕ) (s : BBState), Inv d N s → Compl d N s →
      ∀ {bt : Option (List ℕ)} {bc : WithTop ℚ},
        bbLoop d N oracle fuel s = .ans bt bc →
        bc = (minHamCost d N : WithTop ℚ) ∧
        ∃ p : List ℕ, p.head? = some 0 ∧ p.Perm (List.range N) ∧
          bt = some (p ++ [0]) ∧ bc = (pathCost d (p ++ [0]) : WithTop ℚ) := by
  intro fuel
  induction fuel with
  | zero =>
    intro s _ _ bt bc h
    rw [bbLoop] at h
    exact BBResult.noConfusion h
  | succ fuel ih =>
    intro s hinv hcompl bt bc h
    rw [bbLoop] at h
    cases hstep : bbStep d N oracle s with
    | finished bt' bc' =>
      rw [hstep] at h
      injection h with h1 h2
      obtain ⟨hfr, hbt, hbc⟩ := bbStep_finished hstep
      subst h1
      subst h2
      have hble : s.bc ≤ (minHamCost d N : WithTop ℚ) := by
        rcases hcompl with h' | ⟨σ, _, w, hwfr, _⟩
        · exact h'
        · rw [hfr] at hwfr
          exact absurd hwfr (List.not_mem_nil w)
      rcases hinv.2.2 with ⟨_, hbctop⟩ | ⟨p, hp0, hpperm, hpbt, hpbc⟩
      · exfalso
        rw [hbctop] at hble
        exact absurd (top_le_iff.mp hble) WithTop.coe_ne_top
      · have hge : minHamCost d N ≤ pathCost d (p ++ [0]) := by
          rw [closedCost_eq_concat_zero hp0]
          exact minHamCost_le hpperm
        have hle : pathCost d (p ++ [0]) ≤ minHamCost d N := by
          rw [hpbc] at hble
          exact_mod_cast hble
        have heq : pathCost d (p ++ [0]) = minHamCost d N := le_antisymm hle hge
        rw [hbt, hbc, hpbc, heq]
        refine ⟨rfl, p, hp0, hpperm, hpbt, by rw [heq]⟩
    | timeout =>
      rw [hstep] at h
      exact BBResult.noConfusion h
    | next s' =>
      rw [hstep] at h
      exact ih s' (bbStep_next_inv hd hinv hstep)
        (bbStep_next_compl hsym hd hN hinv hcompl hstep) h

/-- Whenever `branch_and_bound` terminates normally (no timeout) on a
symmetric nonnegative matrix with at least one vertex, the cost it returns
is exactly the minimum Hamiltonian-cycle cost, and the tour it returns is
a closed optimal tour from vertex 0. -/
theorem branchAndBound_opt {d : ℕ → ℕ → ℚ} {N : ℕ} {oracle : ℕ → Bool}
    {fuel : ℕ} {bt : Option (List ℕ)} {c : WithTop ℚ}
    (hsym : SymD d N) (hd : NonnegD d N) (hN : 1 ≤ N)
    (h : branchAndBound d N oracle fuel = some (bt, .val c)) :
    c = (minHamCost d N : WithTop ℚ) ∧
    ∃ p : List ℕ, p.head? = some 0 ∧ p.Perm (List.range N) ∧
      bt = some (p ++ [0]) ∧ c = (pathCost d (p ++ [0]) : WithTop ℚ) := by
  rw [branchAndBound] at h
  cases hL : bbLoop d N oracle fuel bbInit with
  | fuelOut => rw [hL] at h; exact Option.noConfusion h
  | timeout =>
    rw [hL] at h
    injection h with h1
    obtain ⟨_, h2⟩ := Prod.mk.injEq _ _ _ _ ▸ h1
    exact BBCost.noConfusion h2
  | ans bt' bc' =>
    rw [hL] at h
    injection h with h1
    obtain ⟨hbt, hbc⟩ := Prod.mk.injEq _ _ _ _ ▸ h1
    have hbc' : bc' = c := by injection hbc
    subst hbt
    subst hbc'
    exact bbLoop_ans_opt hsym hd hN fuel bbInit (bbInit_inv d N)
      (bbInit_compl hd hN) hL

/-- Normal termination always returns a priced well-formed incumbent (or
`(None, inf)` when no tour was ever completed, which happens only for
`N = 0`). -/
theorem branchAndBound_ans {d : ℕ → ℕ → ℚ} {N : ℕ} {oracle : ℕ → Bool}
    {fuel : ℕ} {bt : Option (List ℕ)} {c : WithTop ℚ}
    (hd : NonnegD d N)
    (h : branchAndBound d N oracle fuel = some (bt, .val c)) :
    Incumbent d N bt c := by
  rw [branchAndBound] at h
  cases hL : bbLoop d N oracle fuel bbInit with
  | fuelOut => rw [hL] at h; exact Option.noConfusion h
  | timeout =>
    rw [hL] at h
    injection h with h1
    obtain ⟨_, h2⟩ := Prod.mk.injEq _ _ _ _ ▸ h1
    exact BBCost.noConfusion h2
  | ans bt' bc' =>
    rw [hL] at h
    injection h with h1
    obtain ⟨hbt, hbc⟩ := Prod.mk.injEq _ _ _ _ ▸ h1
    have hbc' : bc' = c := by injection hbc
    subst hbt
    subst hbc'
    exact bbLoop_ans_inv hd fuel bbInit (bbInit_inv d N) hL

theorem bbStep_next_frontierInv {d : ℕ → ℕ → ℚ} {N : ℕ} {oracle : ℕ → Bool}
    {s s' : BBState} (hfi : FrontierInv s.frontier)
    (hstep : bbStep d N oracle s = .next s') : FrontierInv s'.frontier := by
  rw [bbStep] at hstep
  split at hstep
  · exact StepRes.noConfusion hstep
  · rename_i nd rest hpop
    obtain ⟨hmem, hrest⟩ := popMin_some hpop
    by_cases ho : oracle s.ctr
    · rw [if_pos ho] at hstep
      exact StepRes.noConfusion hstep
    rw [if_neg ho] at hstep
    have hrestinv : FrontierInv rest := hrest ▸ frontierInv_erase nd hfi
    by_cases hprune : s.bc ≤ (nd.bound : WithTop ℚ)
    · rw [if_pos hprune] at hstep
      injection hstep with h
      subst h
      exact hrestinv
    rw [if_neg hprune] at hstep
    by_cases hcard : nd.visited.card = N
    · rw [if_pos hcard] at hstep
      by_cases himp : ((nd.cost + d (nd.path.getLastD 0) 0 : ℚ) : WithTop ℚ) < s.bc
      · rw [if_pos himp] at hstep
        injection hstep with h
        subst h
        exact hrestinv
      · rw [if_neg himp] at hstep
        injection hstep with h
        subst h
        exact hrestinv
    · rw [if_neg hcard] at hstep
      split at hstep
      · exact StepRes.noConfusion hstep
      · rename_i children ctr' hexp
        injection hstep with h
        subst h
        have hch : children = kidsOver d N nd s.bc (List.range N) := by
          have := expandGo_some d N oracle nd s.bc (List.range N) (s.ctr + 1) [] hexp
          simpa using this
        show FrontierInv (rest ++ children)
        rw [hrest, hch]
        exact frontierInv_expand hfi hmem

theorem reach_frontierInv {d : ℕ → ℕ → ℚ} {N : ℕ} {oracle : ℕ → Bool} :
    ∀ {s : BBState}, ReachState d N oracle s → FrontierInv s.frontier := by
  have hkey : ∀ (k : ℕ) (s : BBState), iterStates d N oracle k = some s →
      FrontierInv s.frontier := by
    intro k
    induction k with
    | zero =>
      intro s h
      rw [iterStates] at h
      injection h with h1
      rw [← h1]
      exact (bbInit_inv d N).2.1
    | succ k ih =>
      intro s h
      rw [iterStates] at h
      cases hk : iterStates d N oracle k with
      | none => rw [hk] at h; exact Option.noConfusion h
      | some s0 =>
        rw [hk] at h
        simp only [Option.some_bind] at h
        rw [stepNext] at h
        cases hstep : bbStep d N oracle s0 with
        | finished bt bc => rw [hstep] at h; exact Option.noConfusion h
        | timeout => rw [hstep] at h; exact Option.noConfusion h
        | next s1 =>
          rw [hstep] at h
          injection h with h1
          rw [← h1]
          exact bbStep_next_frontierInv (ih s0 hk) hstep
  rintro s ⟨k, hk⟩
  exact hkey k s hk

theorem reach_inv {d : ℕ → ℕ → ℚ} {N : ℕ} {oracle : ℕ → Bool}
    (hd : NonnegD d N) :
    ∀ {s : BBState}, ReachState d N oracle s → Inv d N s := by
  have hkey : ∀ (k : ℕ) (s : BBState), iterStates d N oracle k = some s →
      Inv d N s := by
    intro k
    induction k with
    | zero =>
      intro s h
      rw [iterStates] at h
      injection h with h1
      rw [← h1]
      exact bbInit_inv d N
    | succ k ih =>
      intro s h
      rw [iterStates] at h
      cases hk : iterStates d N oracle k with
      | none => rw [hk] at h; exact Option.noConfusion h
      | some s0 =>
        rw [hk] at h
        simp only [Option.some_bind] at h
        rw [stepNext] at h
        cases hstep : bbStep d N oracle s0 with
        | finished bt bc => rw [hstep] at h; exact Option.noConfusion h
        | timeout => rw [hstep] at h; exact Option.noConfusion h
        | next s1 =>
          rw [hstep] at h
          injection h with h1
          rw [← h1]
          exact bbStep_next_inv hd (ih s0 hk) hstep
  rintro s ⟨k, hk⟩
  exact hkey k s hk

theorem pathLtB_total : ∀ (p q : List ℕ), p ≠ q →
    pathLtB p q = true ∨ pathLtB q p = true
  | [], [], h => absurd rfl h
  | [], _ :: _, _ => Or.inl rfl
  | _ :: _, [], _ => Or.inr rfl
  | a :: as, b :: bs, h => by
    rcases lt_trichotomy a b with hab | hab | hab
    · left
      rw [pathLtB, if_pos hab]
    · subst hab
      have hne : as ≠ bs := by
        intro hc
        exact h (by rw [hc])
      rcases pathLtB_total as bs hne with h' | h'
      · left
        rw [pathLtB, if_neg (lt_irrefl a), if_neg (lt_irrefl a)]
        exact h'
      · right
        rw [pathLtB, if_neg (lt_irrefl a), if_neg (lt_irrefl a)]
        exact h'
    · right
      rw [pathLtB, if_pos hab]

theorem nodeLtB_total {a b : BBNode} (h : a.path ≠ b.path) :
    nodeLtB a b = true ∨ nodeLtB b a = true := by
  rw [nodeLtB, nodeLtB]
  simp only [Bool.or_eq_true, Bool.and_eq_true, decide_eq_true_eq]
  rcases lt_trichotomy a.bound b.bound with h1 | h1 | h1
  · exact Or.inl (Or.inl h1)
  · rcases lt_trichotomy a.cost b.cost with h2 | h2 | h2
    · exact Or.inl (Or.inr ⟨h1, Or.inl h2⟩)
    · rcases pathLtB_total a.path b.path h with h3 | h3
      · exact Or.inl (Or.inr ⟨h1, Or.inr ⟨h2, Or.inl h3⟩⟩)
      · exact Or.inr (Or.inr ⟨h1.symm, Or.inr ⟨h2.symm, Or.inl h3⟩⟩)
    · exact Or.inr (Or.inr ⟨h1.symm, Or.inl h2⟩)
  · exact Or.inr (Or.inl h1)

/-- When the queue is nonempty and the clock check at the top of the loop
observes an exceeded budget, the step raises the timeout — whatever the
incumbent is. -/
theorem bbStep_timeout_of_oracle {d : ℕ → ℕ → ℚ} {N : ℕ} {oracle : ℕ → Bool}
    {s : BBState} (hfr : s.frontier ≠ []) (ho : oracle s.ctr = true) :
    bbStep d N oracle s = .timeout := by
  rcases hpop : popMin s.frontier with _ | ⟨nd, rest⟩
  · exact absurd (popMin_none_iff.mp hpop) hfr
  · rw [bbStep, hpop]
    simp [ho]

theorem bbLoop_timeout_of_oracle {d : ℕ → ℕ → ℚ} {N : ℕ} {oracle : ℕ → Bool}
    {s : BBState} {fuel : ℕ} (hfr : s.frontier ≠ []) (ho : oracle s.ctr = true) :
    bbLoop d N oracle (fuel + 1) s = .timeout := by
  rw [bbLoop, bbStep_timeout_of_oracle hfr ho]

theorem incumbent_validTour {d : ℕ → ℕ → ℚ} {N : ℕ} {tour : List ℕ}
    {c : WithTop ℚ} (h : Incumbent d N (some tour) c) :
    ValidTour N tour ∧ c = (pathCost d tour : WithTop ℚ) := by
  rcases h with ⟨h1, _⟩ | ⟨p, hp0, hpperm, hpbt, hpbc⟩
  · exact Option.noConfusion h1
  · have htour : tour = p ++ [0] := Option.some.inj hpbt
    subst htour
    have hplen : p.length = N := by
      rw [hpperm.length_eq, List.length_range]
    refine ⟨⟨by simp [hplen], ?_, ?_⟩, hpbc⟩
    · have hpne : p ≠ [] := by
        intro hc
        rw [hc] at hp0
        exact Option.noConfusion hp0
      rw [List.getLast?_concat]
      cases hp : p with
      | nil => exact absurd hp hpne
      | cons a t =>
        rw [hp] at hp0
        simp only [List.head?_cons] at hp0 ⊢
        simp [hp0]
    · have : (p ++ [0]).take N = p := by
        rw [← hplen]
        exact List.take_left p [0]
      rw [this]
      exact hpperm

theorem shortcutEuler_cost {d : ℕ → ℕ → ℚ} {E : List (ℕ × ℕ)}
    {tour : List ℕ} {c : ℚ} (h : shortcutEuler d E = some (tour, c)) :
    c = pathCost d tour := by
  rw [shortcutEuler] at h
  cases hfo : firstOccur (E.map Prod.fst) with
  | nil =>
    rw [hfo] at h
    exact Option.noConfusion h
  | cons v0 rest =>
    rw [hfo] at h
    injection h with h1
    rw [Prod.mk.injEq] at h1
    obtain ⟨h2, h3⟩ := h1
    rw [← h2]
    exact h3.symm

/-- Exact rational value of the double `math.sqrt(2.0)` (the distance
between opposite corners computed by `math.dist`). -/
def sqrtTwoF : ℚ := 6369051672525773 / 4503599627370496

/-- Distance matrix of the 4-point unit square with coordinates
(0,0),(1,0),(1,1),(0,1) in this order: consecutive corners (odd index sum)
at distance 1, opposite corners at the float value of √2. -/
def squareD : ℕ → ℕ → ℚ := fun i j =>
  if i = j then 0 else if (i + j) % 2 = 1 then 1 else sqrtTwoF

/-- Distance matrix of a single point (and of the empty instance). -/
def oneD : ℕ → ℕ → ℚ := fun _ _ => 0

/-- Distance matrix of two points at distance 1. -/
def twoD : ℕ → ℕ → ℚ := fun i j => if i = j then 0 else 1

theorem pairsOf_empty_eq : pairsOf ∅ = ∅ := by decide

theorem spanning_le_one_empty {n : ℕ} {T : Finset (ℕ × ℕ)} (hn : n ≤ 1)
    (hT : IsSpanningTree (Finset.range n) T) : T = ∅ := by
  have hsub := hT.1
  have hP : pairsOf (Finset.range n) = ∅ := by
    interval_cases n
    · decide
    · decide
  rw [hP] at hsub
  exact Finset.subset_empty.mp hsub

theorem oddVerts_empty_tree (n : ℕ) : oddVerts n (∅ : Finset (ℕ × ℕ)) = ∅ := by
  rw [oddVerts]
  apply Finset.filter_false_of_mem
  intro v _
  simp [degT]

/-- The tuple comparison with the set component dropped: lexicographic on
`(bound, cost, path)` only. -/
def nodeLtBNoSet (a b : BBNode) : Bool :=
  decide (a.bound < b.bound) ||
    (decide (a.bound = b.bound) &&
      (decide (a.cost < b.cost) ||
        (decide (a.cost = b.cost) && pathLtB a.path b.path)))

theorem nodeLtB_eq_noSet {a b : BBNode} (h : a.path ≠ b.path) :
    nodeLtB a b = nodeLtBNoSet a b := by
  rw [nodeLtB, nodeLtBNoSet, decide_eq_false h]
  simp

theorem squareD_one_le {u v : ℕ} (h : u ≠ v) : 1 ≤ squareD u v := by
  rw [squareD, if_neg h]
  by_cases h2 : (u + v) % 2 = 1
  · rw [if_pos h2]
  · rw [if_neg h2, sqrtTwoF]
    norm_num

theorem closedCost_square_ge {p : List ℕ} (hp : p.Perm (List.range 4)) :
    4 ≤ closedCost squareD p := by
  have hlen : p.length = 4 := by rw [hp.length_eq, List.length_range]
  have hnd : p.Nodup := hp.nodup_iff.mpr (List.nodup_range 4)
  obtain ⟨a, b, c, e, rfl⟩ : ∃ a b c e, p = [a, b, c, e] := by
    match p, hlen with
    | [a, b, c, e], _ => exact ⟨a, b, c, e, rfl⟩
  simp only [List.nodup_cons, List.mem_cons, List.mem_singleton,
    List.not_mem_nil, or_false, not_or] at hnd
  obtain ⟨⟨hab, _, hae⟩, ⟨hbc, _⟩, hce, _⟩ := hnd
  have h1 := squareD_one_le hab
  have h2 := squareD_one_le hbc
  have h3 := squareD_one_le hce
  have h4 := squareD_one_le (fun hc => hae hc.symm)
  show (4 : ℚ) ≤ squareD a b + (squareD b c + (squareD c e + (squareD e a + 0)))
  linarith

theorem minHamCost_square : minHamCost squareD 4 = 4 := by
  apply le_antisymm
  · have hperm : [0, 1, 2, 3].Perm (List.range 4) := by
      rw [show List.range 4 = [0, 1, 2, 3] from rfl]
    calc minHamCost squareD 4 ≤ closedCost squareD [0, 1, 2, 3] := minHamCost_le hperm
      _ = 4 := by with_unfolding_all decide
  · rw [minHamCost]
    have hne : ((List.range 4).permutations).toFinset.Nonempty :=
      ⟨List.range 4, by simp [List.mem_permutations]⟩
    obtain ⟨p, hpmem, heq, _⟩ := @minCostOver_attained _ _ _ (closedCost squareD) hne
    rw [heq]
    exact closedCost_square_ge
      (by simpa [List.mem_toFinset, List.mem_permutations] using hpmem)

/-- C1: for every symmetric nonnegative distance matrix on `N ≥ 1` vertices,
whenever the branch-and-bound runs to frontier exhaustion (it returns a
`.val` cost rather than the timeout marker), the returned cost equals the
minimum cost over all Hamiltonian cycles; and on the 4-point unit-square
instance (coordinates (0,0),(1,0),(1,1),(0,1), side 1) that minimum is
exactly 4. -/
theorem claim_C1 :
    (∀ (d : ℕ → ℕ → ℚ) (N : ℕ) (oracle : ℕ → Bool) (fuel : ℕ)
        (bt : Option (List ℕ)) (c : WithTop ℚ),
        SymD d N → NonnegD d N → 1 ≤ N →
        branchAndBound d N oracle fuel = some (bt, .val c) →
        c = (minHamCost d N : WithTop ℚ)) ∧
    minHamCost squareD 4 = 4 := by
  constructor
  · intro d N oracle fuel bt c hsym hd hN h
    exact (branchAndBound_opt hsym hd hN h).1
  · exact minHamCost_square

theorem claim_C1_witness :
    SymD twoD 2 ∧ NonnegD twoD 2 ∧ 1 ≤ 2 ∧
    branchAndBound twoD 2 (fun _ => false) 10 =
      some (some [0, 1, 0], .val ((2 : ℚ) : WithTop ℚ)) ∧
    ((2 : ℚ) : WithTop ℚ) = (minHamCost twoD 2 : WithTop ℚ) := by
  have hsym : SymD twoD 2 := by with_unfolding_all decide
  have hd : NonnegD twoD 2 := by with_unfolding_all decide
  have hrun : branchAndBound twoD 2 (fun _ => false) 10 =
      some (some [0, 1, 0], .val ((2 : ℚ) : WithTop ℚ)) := by
    with_unfolding_all decide
  exact ⟨hsym, hd, by omega, hrun,
    claim_C1.1 twoD 2 (fun _ => false) 10 (some [0, 1, 0])
      ((2 : ℚ) : WithTop ℚ) hsym hd (by omega) hrun⟩

/-- C2: whenever the timeout check at the top of the loop body observes an
exceeded budget while the queue is nonempty, the loop ends in the timeout
outcome no matter what incumbent tour and cost are currently stored; and a
run whose very first check observes an exceeded budget returns
`(None, "NA")` — never a partial or best-effort result. -/
theorem claim_C2 :
    (∀ (d : ℕ → ℕ → ℚ) (N : ℕ) (oracle : ℕ → Bool) (fuel : ℕ) (s : BBState),
        s.frontier ≠ [] → oracle s.ctr = true →
        bbLoop d N oracle (fuel + 1) s = .timeout) ∧
    (∀ (d : ℕ → ℕ → ℚ) (N : ℕ) (oracle : ℕ → Bool) (fuel : ℕ),
        oracle 0 = true → branchAndBound d N oracle (fuel + 1) = some (none, .NA)) := by
  constructor
  · intro d N oracle fuel s hfr ho
    exact bbLoop_timeout_of_oracle hfr ho
  · intro d N oracle fuel ho
    rw [branchAndBound,
      @bbLoop_timeout_of_oracle d N oracle bbInit fuel (fun hc => List.noConfusion hc) ho]

theorem claim_C2_witness :
    (fun _ : ℕ => true) 0 = true ∧
    branchAndBound oneD 2 (fun _ => true) (4 + 1) = some (none, .NA) :=
  ⟨rfl, claim_C2.2 oneD 2 (fun _ => true) 4 rfl⟩

/-- C3: on every symmetric nonnegative triangle-inequality matrix (the
Euclidean case) with `n ≥ 2` on which the branch-and-bound returns the
optimal cost, christofides — run on any minimum spanning tree, any minimum
perfect matching of its odd-degree vertices and any Eulerian circuit of
their union, as delivered by the networkx contracts — returns a cost at
most 1.5 times that optimum. -/
theorem claim_C3 :
    ∀ (d : ℕ → ℕ → ℚ) (n : ℕ) (T M : Finset (ℕ × ℕ)) (E : List (ℕ × ℕ))
      (oracle : ℕ → Bool) (fuel : ℕ) (bt : Option (List ℕ)) (c : WithTop ℚ),
      SymD d n → NonnegD d n → TriD d n → 2 ≤ n →
      MstWitness d n T → MatchingWitness d (oddVerts n T) M →
      IsEulerCircuit (unionMG T M) E →
      branchAndBound d n oracle fuel = some (bt, .val c) →
      ∃ tour hc opt, christofides d E = some (tour, hc) ∧
        c = ((opt : ℚ) : WithTop ℚ) ∧ hc ≤ (3 / 2) * opt := by
  intro d n T M E oracle fuel bt c hsym hd htri h2 hT hM hE hbb
  obtain ⟨tour, hc, heq, _, _, hle⟩ :=
    christofides_le_three_halves_opt hsym hd htri h2 hT hM hE
  exact ⟨tour, hc, minHamCost d n, heq,
    (branchAndBound_opt hsym hd (by omega) hbb).1, hle⟩

theorem claim_C3_witness :
    SymD twoD 2 ∧ NonnegD twoD 2 ∧ TriD twoD 2 ∧ 2 ≤ 2 ∧
    MstWitness twoD 2 {(0, 1)} ∧
    MatchingWitness twoD (oddVerts 2 {(0, 1)}) {(0, 1)} ∧
    IsEulerCircuit (unionMG {(0, 1)} {(0, 1)}) [(0, 1), (1, 0)] ∧
    branchAndBound twoD 2 (fun _ => false) 10 =
      some (some [0, 1, 0], .val ((2 : ℚ) : WithTop ℚ)) ∧
    (∃ tour hc opt, christofides twoD [(0, 1), (1, 0)] = some (tour, hc) ∧
      ((2 : ℚ) : WithTop ℚ) = ((opt : ℚ) : WithTop ℚ) ∧ hc ≤ (3 / 2) * opt) := by
  have h1 : SymD twoD 2 := by with_unfolding_all decide
  have h2 : NonnegD twoD 2 := by with_unfolding_all decide
  have h3 : TriD twoD 2 := by with_unfolding_all decide
  have h4 : MstWitness twoD 2 {(0, 1)} := by with_unfolding_all decide
  have h5 : MatchingWitness twoD (oddVerts 2 {(0, 1)}) {(0, 1)} := by
    with_unfolding_all decide
  have h6 : IsEulerCircuit (unionMG {(0, 1)} {(0, 1)}) [(0, 1), (1, 0)] :=
    ⟨rfl, List.Chain.cons rfl List.Chain.nil, Or.inr rfl⟩
  have h7 : branchAndBound twoD 2 (fun _ => false) 10 =
      some (some [0, 1, 0], .val ((2 : ℚ) : WithTop ℚ)) := by
    with_unfolding_all decide
  exact ⟨h1, h2, h3, by omega, h4, h5, h6, h7,
    claim_C3 twoD 2 {(0, 1)} {(0, 1)} [(0, 1), (1, 0)] (fun _ => false) 10
      (some [0, 1, 0]) ((2 : ℚ) : WithTop ℚ) h1 h2 h3 (by omega) h4 h5 h6 h7⟩

/-- C4 counterexample: the claim fails at n = 1.  On the 1-point instance
the branch-and-bound returns the optimal cost 0 with tour [0, 0], while
twice_around_tree produces no tour at all: the MST is empty, its doubling
has an empty Eulerian circuit, and `visited[0]` on the empty list raises
IndexError (modelled by `none`). -/
theorem claim_C4_counterexample :
    MstWitness oneD 1 ∅ ∧ IsEulerCircuit (doubleMG (∅ : Finset (ℕ × ℕ))) [] ∧
    branchAndBound oneD 1 (fun _ => false) 3 =
      some (some [0, 0], .val ((0 : ℚ) : WithTop ℚ)) ∧
    twiceAroundTree oneD [] = none := by
  with_unfolding_all decide

/-- C4 (amended): for `n ≥ 2` — not n ≥ 1 as claimed, since at n = 1
twice_around_tree raises IndexError (see the counterexample) — on every
symmetric nonnegative triangle-inequality matrix on which the
branch-and-bound returns the optimal cost, twice_around_tree returns a
valid closed tour visiting all n vertices exactly once plus the closing
return, with cost at most 2 times that optimum. -/
theorem claim_C4 :
    ∀ (d : ℕ → ℕ → ℚ) (n : ℕ) (T : Finset (ℕ × ℕ)) (E : List (ℕ × ℕ))
      (oracle : ℕ → Bool) (fuel : ℕ) (bt : Option (List ℕ)) (c : WithTop ℚ),
      SymD d n → NonnegD d n → TriD d n → 2 ≤ n →
      MstWitness d n T → IsEulerCircuit (doubleMG T) E →
      branchAndBound d n oracle fuel = some (bt, .val c) →
      ∃ tour tc opt, twiceAroundTree d E = some (tour, tc) ∧ ValidTour n tour ∧
        c = ((opt : ℚ) : WithTop ℚ) ∧ tc ≤ 2 * opt := by
  intro d n T E oracle fuel bt c hsym hd htri h2 hT hE hbb
  obtain ⟨tour, tc, heq, hvalid, _, hle⟩ :=
    twiceAroundTree_le_two_opt hsym hd htri h2 hT hE
  exact ⟨tour, tc, minHamCost d n, heq, hvalid,
    (branchAndBound_opt hsym hd (by omega) hbb).1, hle⟩

theorem claim_C4_witness :
    SymD twoD 2 ∧ NonnegD twoD 2 ∧ TriD twoD 2 ∧ 2 ≤ 2 ∧
    MstWitness twoD 2 {(0, 1)} ∧
    IsEulerCircuit (doubleMG {(0, 1)}) [(0, 1), (1, 0)] ∧
    branchAndBound twoD 2 (fun _ => false) 10 =
      some (some [0, 1, 0], .val ((2 : ℚ) : WithTop ℚ)) ∧
    (∃ tour tc opt, twiceAroundTree twoD [(0, 1), (1, 0)] = some (tour, tc) ∧
      ValidTour 2 tour ∧ ((2 : ℚ) : WithTop ℚ) = ((opt : ℚ) : WithTop ℚ) ∧
      tc ≤ 2 * opt) := by
  have h1 : SymD twoD 2 := by with_unfolding_all decide
  have h2 : NonnegD twoD 2 := by with_unfolding_all decide
  have h3 : TriD twoD 2 := by with_unfolding_all decide
  have h4 : MstWitness twoD 2 {(0, 1)} := by with_unfolding_all decide
  have h6 : IsEulerCircuit (doubleMG {(0, 1)}) [(0, 1), (1, 0)] :=
    ⟨rfl, List.Chain.cons rfl List.Chain.nil, Or.inr rfl⟩
  have h7 : branchAndBound twoD 2 (fun _ => false) 10 =
      some (some [0, 1, 0], .val ((2 : ℚ) : WithTop ℚ)) := by
    with_unfolding_all decide
  exact ⟨h1, h2, h3, by omega, h4, h6, h7,
    claim_C4 twoD 2 {(0, 1)} [(0, 1), (1, 0)] (fun _ => false) 10
      (some [0, 1, 0]) ((2 : ℚ) : WithTop ℚ) h1 h2 h3 (by omega) h4 h6 h7⟩

/-- C5: every tour returned by twice_around_tree, christofides (each run on
networkx-contract objects for some n-vertex instance) or a non-timeout
branch-and-bound is a list of length n + 1 whose first and last entries
coincide and whose first n entries are a permutation of 0..n-1. -/
theorem claim_C5 :
    (∀ (d : ℕ → ℕ → ℚ) (n : ℕ) (T : Finset (ℕ × ℕ)) (E : List (ℕ × ℕ))
        (tour : List ℕ) (c : ℚ), IsSpanningTree (Finset.range n) T →
        IsEulerCircuit (doubleMG T) E → twiceAroundTree d E = some (tour, c) →
        ValidTour n tour) ∧
    (∀ (d : ℕ → ℕ → ℚ) (n : ℕ) (T M : Finset (ℕ × ℕ)) (E : List (ℕ × ℕ))
        (tour : List ℕ) (c : ℚ), IsSpanningTree (Finset.range n) T →
        M ⊆ pairsOf (oddVerts n T) → IsEulerCircuit (unionMG T M) E →
        christofides d E = some (tour, c) → ValidTour n tour) ∧
    (∀ (d : ℕ → ℕ → ℚ) (N : ℕ) (oracle : ℕ → Bool) (fuel : ℕ)
        (tour : List ℕ) (c : WithTop ℚ), NonnegD d N →
        branchAndBound d N oracle fuel = some (some tour, .val c) →
        ValidTour N tour) := by
  refine ⟨?_, ?_, ?_⟩
  · intro d n T E tour c hT hE h
    exact (twiceAroundTree_valid hT hE h).1
  · intro d n T M E tour c hT hM hE h
    exact (christofides_valid hT hM hE h).1
  · intro d N oracle fuel tour c hd h
    exact (incumbent_validTour (branchAndBound_ans hd h)).1

theorem claim_C5_witness :
    NonnegD oneD 1 ∧
    branchAndBound oneD 1 (fun _ => false) 3 =
      some (some [0, 0], .val ((0 : ℚ) : WithTop ℚ)) ∧
    ValidTour 1 [0, 0] := by
  have hd : NonnegD oneD 1 := by with_unfolding_all decide
  have hrun : branchAndBound oneD 1 (fun _ => false) 3 =
      some (some [0, 0], .val ((0 : ℚ) : WithTop ℚ)) := by
    with_unfolding_all decide
  exact ⟨hd, hrun,
    claim_C5.2.2 oneD 1 (fun _ => false) 3 [0, 0] ((0 : ℚ) : WithTop ℚ) hd hrun⟩

/-- C6: the numeric cost each solver returns together with a tour is the
sum of the consecutive distances along that tour including the closing
edge, i.e. `pathCost` of the returned list. -/
theorem claim_C6 :
    (∀ (d : ℕ → ℕ → ℚ) (E : List (ℕ × ℕ)) (tour : List ℕ) (c : ℚ),
        twiceAroundTree d E = some (tour, c) → c = pathCost d tour) ∧
    (∀ (d : ℕ → ℕ → ℚ) (E : List (ℕ × ℕ)) (tour : List ℕ) (c : ℚ),
        christofides d E = some (tour, c) → c = pathCost d tour) ∧
    (∀ (d : ℕ → ℕ → ℚ) (N : ℕ) (oracle : ℕ → Bool) (fuel : ℕ)
        (tour : List ℕ) (c : WithTop ℚ), NonnegD d N →
        branchAndBound d N oracle fuel = some (some tour, .val c) →
        c = (pathCost d tour : WithTop ℚ)) := by
  refine ⟨?_, ?_, ?_⟩
  · intro d E tour c h
    rw [twiceAroundTree] at h
    exact shortcutEuler_cost h
  · intro d E tour c h
    rw [christofides] at h
    exact shortcutEuler_cost h
  · intro d N oracle fuel tour c hd h
    exact (incumbent_validTour (branchAndBound_ans hd h)).2

theorem claim_C6_witness :
    NonnegD twoD 2 ∧
    branchAndBound twoD 2 (fun _ => false) 10 =
      some (some [0, 1, 0], .val ((2 : ℚ) : WithTop ℚ)) ∧
    ((2 : ℚ) : WithTop ℚ) = (pathCost twoD [0, 1, 0] : WithTop ℚ) := by
  have hd : NonnegD twoD 2 := by with_unfolding_all decide
  have hrun : branchAndBound twoD 2 (fun _ => false) 10 =
      some (some [0, 1, 0], .val ((2 : ℚ) : WithTop ℚ)) := by
    with_unfolding_all decide
  exact ⟨hd, hrun,
    claim_C6.2.2 twoD 2 (fun _ => false) 10 [0, 1, 0] ((2 : ℚ) : WithTop ℚ) hd hrun⟩

/-- C7 counterexample: the claim fails on both degenerate sizes.  At n = 0
the branch-and-bound returns `(None, inf)` — not cost 0 — and at n = 0 or
n = 1 the heuristics return no tour at all: the MST is empty (here shown
for n = 1, where the empty edge set is the spanning tree), the Eulerian
circuit is empty, and `visited[0]` raises IndexError (modelled by `none`).
-/
theorem claim_C7_counterexample :
    branchAndBound oneD 0 (fun _ => false) 3 = some (none, .val ⊤) ∧
    IsSpanningTree (Finset.range 1) (∅ : Finset (ℕ × ℕ)) ∧
    IsEulerCircuit (doubleMG (∅ : Finset (ℕ × ℕ))) [] ∧
    twiceAroundTree oneD [] = none ∧ christofides oneD [] = none := by
  with_unfolding_all decide

/-- C7 (amended): on degenerate inputs the actual behavior is — for n = 1
the branch-and-bound terminates immediately with cost 0 and tour [0, 0],
but for n = 0 it returns `(None, inf)`; and for every n ≤ 1 both
twice_around_tree and christofides raise IndexError (return no tour): the
spanning tree, and hence the Eulerian multigraph and its circuit, are
empty. -/
theorem claim_C7 :
    branchAndBound oneD 1 (fun _ => false) 3 =
      some (some [0, 0], .val ((0 : ℚ) : WithTop ℚ)) ∧
    branchAndBound oneD 0 (fun _ => false) 3 = some (none, .val ⊤) ∧
    (∀ (d : ℕ → ℕ → ℚ) (n : ℕ) (T : Finset (ℕ × ℕ)) (E : List (ℕ × ℕ)),
        n ≤ 1 → IsSpanningTree (Finset.range n) T →
        IsEulerCircuit (doubleMG T) E → twiceAroundTree d E = none) ∧
    (∀ (d : ℕ → ℕ → ℚ) (n : ℕ) (T M : Finset (ℕ × ℕ)) (E : List (ℕ × ℕ)),
        n ≤ 1 → IsSpanningTree (Finset.range n) T → M ⊆ pairsOf (oddVerts n T) →
        IsEulerCircuit (unionMG T M) E → christofides d E = none) := by
  refine ⟨by with_unfolding_all decide, by with_unfolding_all decide, ?_, ?_⟩
  · intro d n T E hn hT hE
    have hTe := spanning_le_one_empty hn hT
    subst hTe
    have hE0 : E = [] := (euler_nil_iff hE).mpr (by simp [doubleMG])
    rw [hE0, twiceAroundTree, shortcutEuler_nil]
  · intro d n T M E hn hT hM hE
    have hTe := spanning_le_one_empty hn hT
    subst hTe
    rw [oddVerts_empty_tree, pairsOf_empty_eq] at hM
    have hMe : M = ∅ := Finset.subset_empty.mp hM
    subst hMe
    have hE0 : E = [] := (euler_nil_iff hE).mpr (by simp [unionMG])
    rw [hE0, christofides, shortcutEuler_nil]

theorem claim_C7_witness :
    (1 : ℕ) ≤ 1 ∧ IsSpanningTree (Finset.range 1) (∅ : Finset (ℕ × ℕ)) ∧
    IsEulerCircuit (doubleMG (∅ : Finset (ℕ × ℕ))) [] ∧
    twiceAroundTree squareD [] = none := by
  have h1 : IsSpanningTree (Finset.range 1) (∅ : Finset (ℕ × ℕ)) := by decide
  have h2 : IsEulerCircuit (doubleMG (∅ : Finset (ℕ × ℕ))) [] := by decide
  exact ⟨le_refl 1, h1, h2, claim_C7.2.2.1 squareD 1 ∅ [] (le_refl 1) h1 h2⟩

/-- C8: every node the branch-and-bound frontier ever holds — in any state
the loop reaches from the initial one, hence the root and every pushed
child — has a duplicate-free path, a visited set equal to the set of its
path vertices, and a lower bound at least its cost so far. -/
theorem claim_C8 :
    ∀ (d : ℕ → ℕ → ℚ) (N : ℕ) (oracle : ℕ → Bool) (s : BBState),
      NonnegD d N → ReachState d N oracle s →
      ∀ nd ∈ s.frontier, nd.path.Nodup ∧ nd.visited = nd.path.toFinset ∧
        nd.cost ≤ nd.bound := by
  intro d N oracle s hd hs nd hnd
  obtain ⟨hwf, _, _⟩ := reach_inv hd hs
  obtain ⟨_, _, h3, _, h5, _, h7⟩ := hwf nd hnd
  exact ⟨h3, h5, h7⟩

theorem claim_C8_witness :
    NonnegD oneD 1 ∧ ReachState oneD 1 (fun _ => false) bbInit ∧
    ∀ nd ∈ bbInit.frontier, nd.path.Nodup ∧ nd.visited = nd.path.toFinset ∧
      nd.cost ≤ nd.bound := by
  have hd : NonnegD oneD 1 := by with_unfolding_all decide
  exact ⟨hd, ⟨0, rfl⟩, claim_C8 oneD 1 (fun _ => false) bbInit hd ⟨0, rfl⟩⟩

/-- C9: each solver is modelled as a pure function of its inputs (the only
run-to-run variation in the source, wall-clock timing, is the explicit
timeout oracle argument of the model), so two runs of the same solver on
the same distance matrix — with the same contract objects and, for the
branch-and-bound, the same timing behavior — return identical results. -/
theorem claim_C9 :
    (∀ (d : ℕ → ℕ → ℚ) (E : List (ℕ × ℕ)) (r1 r2 : Option (List ℕ × ℚ)),
        r1 = twiceAroundTree d E → r2 = twiceAroundTree d E → r1 = r2) ∧
    (∀ (d : ℕ → ℕ → ℚ) (E : List (ℕ × ℕ)) (r1 r2 : Option (List ℕ × ℚ)),
        r1 = christofides d E → r2 = christofides d E → r1 = r2) ∧
    (∀ (d : ℕ → ℕ → ℚ) (N : ℕ) (oracle : ℕ → Bool) (fuel : ℕ)
        (r1 r2 : Option (Option (List ℕ) × BBCost)),
        r1 = branchAndBound d N oracle fuel →
        r2 = branchAndBound d N oracle fuel → r1 = r2) := by
  refine ⟨?_, ?_, ?_⟩
  · intro d E r1 r2 h1 h2
    exact h1.trans h2.symm
  · intro d E r1 r2 h1 h2
    exact h1.trans h2.symm
  · intro d N oracle fuel r1 r2 h1 h2
    exact h1.trans h2.symm

theorem claim_C9_witness :
    some (none, BBCost.NA) = branchAndBound oneD 0 (fun _ => true) 1 ∧
    (some (none, BBCost.NA) : Option (Option (List ℕ) × BBCost)) =
      some (none, BBCost.NA) := by
  have h : some (none, BBCost.NA) = branchAndBound oneD 0 (fun _ => true) 1 := by
    with_unfolding_all decide
  exact ⟨h, claim_C9.2.2 oneD 0 (fun _ => true) 1 _ _ h h⟩

/-- C10: in every state the branch-and-bound loop reaches, no two distinct
queue entries have the same path; hence the Python tuple comparison of two
distinct entries is decided at or before the path component — it computes
the same answer as the comparison that drops the visited-set component
entirely — and any two distinct entries are strictly comparable, so
heappush and heappop never fail on incomparable elements. -/
theorem claim_C10 :
    ∀ (d : ℕ → ℕ → ℚ) (N : ℕ) (oracle : ℕ → Bool) (s : BBState),
      ReachState d N oracle s →
      ∀ a ∈ s.frontier, ∀ b ∈ s.frontier, a ≠ b →
        a.path ≠ b.path ∧ (nodeLtB a b = true ∨ nodeLtB b a = true) ∧
        nodeLtB a b = nodeLtBNoSet a b ∧ nodeLtB b a = nodeLtBNoSet b a := by
  intro d N oracle s hs a ha b hb hab
  have hfi := reach_frontierInv hs
  have hne := frontierInv_path_ne hfi ha hb hab
  exact ⟨hne, nodeLtB_total hne, nodeLtB_eq_noSet hne, nodeLtB_eq_noSet (Ne.symm hne)⟩

theorem claim_C10_witness :
    ReachState oneD 2 (fun _ => false) bbInit ∧
    ∀ a ∈ bbInit.frontier, ∀ b ∈ bbInit.frontier, a ≠ b →
      a.path ≠ b.path ∧ (nodeLtB a b = true ∨ nodeLtB b a = true) ∧
      nodeLtB a b = nodeLtBNoSet a b ∧ nodeLtB b a = nodeLtBNoSet b a :=
  ⟨⟨0, rfl⟩, claim_C10 oneD 2 (fun _ => false) bbInit ⟨0, rfl⟩⟩

end TSP
